import Mathlib

/-!
# Verification of the EDS sewer-installation report engine

Shallow embedding of the core computations of the repository
(`app.py`, `app2.py`) together with proofs of the specified properties.

Conventions of the embedding:
* Python floats are modelled as real numbers (`ℝ`); arithmetic is exact.
* Python byte strings are modelled as `List Nat` (each entry a byte value).
* Python dictionaries with a fixed set of relevant keys are modelled as
  structures; `dict.get(key, default)` on a numeric key is modelled by a
  total field.
-/

set_option autoImplicit false

namespace App

/-- Embedding of `wetted_area_circular_m2` from `src/app.py` (lines 197-209):
wetted area of a partially full circular pipe in m², inputs in mm. -/
noncomputable def wetted_area_circular_m2 (depth_mm diameter_mm : ℝ) : ℝ :=
  if diameter_mm ≤ 0 ∨ depth_mm ≤ 0 then 0
  else
    let D := diameter_mm / 1000
    let r := D / 2
    let h := depth_mm / 1000
    if h ≥ D then Real.pi * r * r
    else r * r * Real.arccos ((r - h) / r) - (r - h) * Real.sqrt (2 * r * h - h * h)

/-- One extra verification reading, as consumed by
`calculate_average_depth_velocity_and_flow`.  The Python readings are dicts
whose numeric entries are read with `r.get(key, 0)`; a missing key behaves
exactly like the value `0`, so total real-valued fields are a faithful model.
The `comment` entry is never read by the calculator and is omitted. -/
structure Reading where
  depth_meas_mm : ℝ
  depth_meter_mm : ℝ
  vel_meas_ms : ℝ
  vel_meter_ms : ℝ

/-- The dictionary returned by `calculate_average_depth_velocity_and_flow`. -/
structure FlowMetrics where
  avg_depth_meas_mm : ℝ
  avg_depth_meter_mm : ℝ
  avg_vel_meas_ms : ℝ
  avg_vel_meter_ms : ℝ
  flow_meas_lps : ℝ
  flow_meter_lps : ℝ
  flow_diff_lps : ℝ
  flow_diff_percent : ℝ

/-- Embedding of the local helper `_avg` (line 236-237 of `src/app.py`):
`float(sum(lst) / len(lst)) if lst else 0.0`. -/
noncomputable def pyAvg (l : List ℝ) : ℝ :=
  match l with
  | [] => 0
  | _ => l.sum / l.length

/-- The body of the `for r in extra_readings` loop (lines 226-234 of
`src/app.py`): appends each strictly positive channel value of the reading
to the corresponding accumulator list. -/
noncomputable def readingStep (acc : List ℝ × List ℝ × List ℝ × List ℝ) (r : Reading) :
    List ℝ × List ℝ × List ℝ × List ℝ :=
  ((if r.depth_meas_mm > 0 then acc.1 ++ [r.depth_meas_mm] else acc.1),
   (if r.depth_meter_mm > 0 then acc.2.1 ++ [r.depth_meter_mm] else acc.2.1),
   (if r.vel_meas_ms > 0 then acc.2.2.1 ++ [r.vel_meas_ms] else acc.2.2.1),
   (if r.vel_meter_ms > 0 then acc.2.2.2 ++ [r.vel_meter_ms] else acc.2.2.2))

/-- Embedding of `calculate_average_depth_velocity_and_flow` from
`src/app.py` (lines 212-261).  The Python truthiness test `if q_meas` on a
float is `q_meas ≠ 0`. -/
noncomputable def calculate_average_depth_velocity_and_flow
    (pipe_diameter_mm depth_primary_meas depth_primary_meter
      vel_primary_meas vel_primary_meter : ℝ)
    (extra_readings : List Reading) : FlowMetrics :=
  let init : List ℝ × List ℝ × List ℝ × List ℝ :=
    ((if depth_primary_meas > 0 then [depth_primary_meas] else []),
     (if depth_primary_meter > 0 then [depth_primary_meter] else []),
     (if vel_primary_meas > 0 then [vel_primary_meas] else []),
     (if vel_primary_meter > 0 then [vel_primary_meter] else []))
  let acc := extra_readings.foldl readingStep init
  let avg_d_meas := pyAvg acc.1
  let avg_d_meter := pyAvg acc.2.1
  let avg_v_meas := pyAvg acc.2.2.1
  let avg_v_meter := pyAvg acc.2.2.2
  let area_meas := wetted_area_circular_m2 avg_d_meas pipe_diameter_mm
  let area_meter := wetted_area_circular_m2 avg_d_meter pipe_diameter_mm
  let q_meas := area_meas * avg_v_meas * 1000
  let q_meter := area_meter * avg_v_meter * 1000
  let q_diff := q_meter - q_meas
  let q_diff_pct := if q_meas = 0 then 0 else q_diff / q_meas * 100
  { avg_depth_meas_mm := avg_d_meas
    avg_depth_meter_mm := avg_d_meter
    avg_vel_meas_ms := avg_v_meas
    avg_vel_meter_ms := avg_v_meter
    flow_meas_lps := q_meas
    flow_meter_lps := q_meter
    flow_diff_lps := q_diff
    flow_diff_percent := q_diff_pct }

/-- The collection rule described by the specification for one channel:
the primary value if strictly positive, followed by each extra reading's
value for that channel if strictly positive. -/
noncomputable def collectChannel (primary : ℝ) (vals : List ℝ) : List ℝ :=
  (if primary > 0 then [primary] else []) ++ vals.filter (fun v => decide (v > 0))

end App

namespace App2

/-- Embedding of `wetted_area_circular_m2` from `src/app2.py` (lines 25-37);
this variant clamps the depth into `[0, D]` and guards the radicand with
`max 0`. -/
noncomputable def wetted_area_circular_m2 (depth_mm diameter_mm : ℝ) : ℝ :=
  if diameter_mm ≤ 0 ∨ depth_mm ≤ 0 then 0
  else
    let D_m := diameter_mm / 1000
    let r := D_m / 2
    let h := max 0 (min (depth_mm / 1000) D_m)
    if h ≥ D_m then Real.pi * r * r
    else r * r * Real.arccos ((r - h) / r) - (r - h) * Real.sqrt (max 0 (2 * r * h - h * h))

end App2

namespace App

/-! ## Averaging lemmas for the hydraulics calculator -/

theorem foldl_readingStep_fst (extras : List Reading)
    (acc : List ℝ × List ℝ × List ℝ × List ℝ) :
    (extras.foldl readingStep acc).1 =
      acc.1 ++ (extras.map Reading.depth_meas_mm).filter (fun v => decide (v > 0)) := by
  induction extras generalizing acc with
  | nil => simp
  | cons r rest ih =>
    simp only [List.foldl_cons, List.map_cons, List.filter_cons, ih]
    by_cases h : r.depth_meas_mm > 0 <;>
      simp [readingStep, h, List.append_assoc]

theorem foldl_readingStep_dmeter (extras : List Reading)
    (acc : List ℝ × List ℝ × List ℝ × List ℝ) :
    (extras.foldl readingStep acc).2.1 =
      acc.2.1 ++ (extras.map Reading.depth_meter_mm).filter (fun v => decide (v > 0)) := by
  induction extras generalizing acc with
  | nil => simp
  | cons r rest ih =>
    simp only [List.foldl_cons, List.map_cons, List.filter_cons, ih]
    by_cases h : r.depth_meter_mm > 0 <;>
      simp [readingStep, h, List.append_assoc]

theorem foldl_readingStep_vmeas (extras : List Reading)
    (acc : List ℝ × List ℝ × List ℝ × List ℝ) :
    (extras.foldl readingStep acc).2.2.1 =
      acc.2.2.1 ++ (extras.map Reading.vel_meas_ms).filter (fun v => decide (v > 0)) := by
  induction extras generalizing acc with
  | nil => simp
  | cons r rest ih =>
    simp only [List.foldl_cons, List.map_cons, List.filter_cons, ih]
    by_cases h : r.vel_meas_ms > 0 <;>
      simp [readingStep, h, List.append_assoc]

theorem foldl_readingStep_vmeter (extras : List Reading)
    (acc : List ℝ × List ℝ × List ℝ × List ℝ) :
    (extras.foldl readingStep acc).2.2.2 =
      acc.2.2.2 ++ (extras.map Reading.vel_meter_ms).filter (fun v => decide (v > 0)) := by
  induction extras generalizing acc with
  | nil => simp
  | cons r rest ih =>
    simp only [List.foldl_cons, List.map_cons, List.filter_cons, ih]
    by_cases h : r.vel_meter_ms > 0 <;>
      simp [readingStep, h, List.append_assoc]

end App

/-! ## Claim C1: per-channel averaging -/

/-- **C1**: each of the four averages returned by
`calculate_average_depth_velocity_and_flow` is the arithmetic mean of exactly
the strictly positive values collected for that channel (primary value if
positive, plus each extra reading's value if positive), and is `0` when the
channel collects nothing; with primary depth `0` and one extra reading of
depth `250` the average depth is `250` (not `125`), and that reading
contributes to the measured-depth channel while being excluded from the
meter-velocity channel. -/
theorem C1_channel_averaging :
    (∀ (dia pdm pdmt pvm pvmt : ℝ) (extras : List App.Reading),
      (App.calculate_average_depth_velocity_and_flow dia pdm pdmt pvm pvmt extras).avg_depth_meas_mm
        = App.pyAvg (App.collectChannel pdm (extras.map App.Reading.depth_meas_mm))
      ∧ (App.calculate_average_depth_velocity_and_flow dia pdm pdmt pvm pvmt extras).avg_depth_meter_mm
        = App.pyAvg (App.collectChannel pdmt (extras.map App.Reading.depth_meter_mm))
      ∧ (App.calculate_average_depth_velocity_and_flow dia pdm pdmt pvm pvmt extras).avg_vel_meas_ms
        = App.pyAvg (App.collectChannel pvm (extras.map App.Reading.vel_meas_ms))
      ∧ (App.calculate_average_depth_velocity_and_flow dia pdm pdmt pvm pvmt extras).avg_vel_meter_ms
        = App.pyAvg (App.collectChannel pvmt (extras.map App.Reading.vel_meter_ms)))
    ∧ App.pyAvg [] = 0
    ∧ ((App.calculate_average_depth_velocity_and_flow 300 0 0 0 0
          [⟨250, 0, 1.2, 0⟩]).avg_depth_meas_mm = 250
      ∧ (App.calculate_average_depth_velocity_and_flow 300 0 0 0 0
          [⟨250, 0, 1.2, 0⟩]).avg_depth_meas_mm ≠ 125
      ∧ (App.calculate_average_depth_velocity_and_flow 300 0 0 0 0
          [⟨250, 0, 1.2, 0⟩]).avg_vel_meas_ms = 1.2
      ∧ (App.calculate_average_depth_velocity_and_flow 300 0 0 0 0
          [⟨250, 0, 1.2, 0⟩]).avg_vel_meter_ms = 0) := by
  refine ⟨fun dia pdm pdmt pvm pvmt extras => ?_, rfl, ?_⟩
  · refine ⟨?_, ?_, ?_, ?_⟩ <;>
      simp only [App.calculate_average_depth_velocity_and_flow, App.collectChannel,
        App.foldl_readingStep_fst, App.foldl_readingStep_dmeter,
        App.foldl_readingStep_vmeas, App.foldl_readingStep_vmeter]
  · refine ⟨?_, ?_, ?_, ?_⟩ <;>
      · simp [App.calculate_average_depth_velocity_and_flow, App.readingStep,
          App.pyAvg]
        try norm_num

/-! ## Claim C3: flow difference and guarded percent difference -/

/-- **C3**: the calculator returns `flow_diff_lps = flow_meter_lps -
flow_meas_lps`; `flow_diff_percent` is `flow_diff_lps / flow_meas_lps * 100`
when the measured flow is nonzero and `0` when the measured flow is `0`,
for every input (the division is guarded, never an error). -/
theorem C3_flow_difference :
    ∀ (dia pdm pdmt pvm pvmt : ℝ) (extras : List App.Reading),
      (App.calculate_average_depth_velocity_and_flow dia pdm pdmt pvm pvmt extras).flow_diff_lps
        = (App.calculate_average_depth_velocity_and_flow dia pdm pdmt pvm pvmt extras).flow_meter_lps
          - (App.calculate_average_depth_velocity_and_flow dia pdm pdmt pvm pvmt extras).flow_meas_lps
      ∧ ((App.calculate_average_depth_velocity_and_flow dia pdm pdmt pvm pvmt extras).flow_meas_lps = 0 →
          (App.calculate_average_depth_velocity_and_flow dia pdm pdmt pvm pvmt extras).flow_diff_percent = 0)
      ∧ ((App.calculate_average_depth_velocity_and_flow dia pdm pdmt pvm pvmt extras).flow_meas_lps ≠ 0 →
          (App.calculate_average_depth_velocity_and_flow dia pdm pdmt pvm pvmt extras).flow_diff_percent
            = (App.calculate_average_depth_velocity_and_flow dia pdm pdmt pvm pvmt extras).flow_diff_lps
              / (App.calculate_average_depth_velocity_and_flow dia pdm pdmt pvm pvmt extras).flow_meas_lps * 100) := by
  intro dia pdm pdmt pvm pvmt extras
  refine ⟨rfl, fun h => ?_, fun h => ?_⟩
  · simp only [App.calculate_average_depth_velocity_and_flow] at h ⊢
    rw [if_pos h]
  · simp only [App.calculate_average_depth_velocity_and_flow] at h ⊢
    rw [if_neg h]

/-- Witness for C3: at an all-zero input the measured flow is `0` and the
percent difference is `0`; at a full-pipe input (diameter 2000 mm, depths
2000 mm, velocities 1 and 2 m/s) the measured flow is nonzero and the
percent difference equals the guarded quotient. -/
theorem C3_flow_difference_witness :
    ((App.calculate_average_depth_velocity_and_flow 0 0 0 0 0 []).flow_meas_lps = 0
      ∧ (App.calculate_average_depth_velocity_and_flow 0 0 0 0 0 []).flow_diff_percent = 0)
    ∧ ((App.calculate_average_depth_velocity_and_flow 2000 2000 2000 1 2 []).flow_meas_lps ≠ 0
      ∧ (App.calculate_average_depth_velocity_and_flow 2000 2000 2000 1 2 []).flow_diff_percent
          = (App.calculate_average_depth_velocity_and_flow 2000 2000 2000 1 2 []).flow_diff_lps
            / (App.calculate_average_depth_velocity_and_flow 2000 2000 2000 1 2 []).flow_meas_lps * 100) := by
  have hz : (App.calculate_average_depth_velocity_and_flow 0 0 0 0 0 []).flow_meas_lps = 0 := by
    simp [App.calculate_average_depth_velocity_and_flow, App.pyAvg,
      App.wetted_area_circular_m2]
  have hf : (App.calculate_average_depth_velocity_and_flow 2000 2000 2000 1 2 []).flow_meas_lps ≠ 0 := by
    simp only [App.calculate_average_depth_velocity_and_flow, App.pyAvg,
      App.wetted_area_circular_m2, List.foldl_nil]
    norm_num [Real.pi_ne_zero]
  exact ⟨⟨hz, (C3_flow_difference 0 0 0 0 0 []).2.1 hz⟩,
    ⟨hf, (C3_flow_difference 2000 2000 2000 1 2 []).2.2 hf⟩⟩

/-! ## Claim C2: wetted area, degenerate and full-pipe cases -/

/-- **C2, counterexample**: the claim asserts the full-pipe value
`π·(D/2000)²` for *every* input with `depth_mm ≥ diameter_mm`, but at
`depth_mm = diameter_mm = -1` (which satisfies `depth_mm ≥ diameter_mm`)
the function returns `0` while `π·(D/2000)²` is nonzero. -/
theorem C2_counterexample :
    ((-1:ℝ) ≥ (-1:ℝ))
    ∧ App.wetted_area_circular_m2 (-1) (-1) = 0
    ∧ Real.pi * ((-1:ℝ) / 2000)^2 ≠ 0 := by
  refine ⟨le_refl _, ?_, ?_⟩
  · simp [App.wetted_area_circular_m2]
  · have hpi := Real.pi_pos
    positivity

/-- **C2, amended**: `wetted_area_circular_m2` returns `0` whenever
`diameter_mm ≤ 0` or `depth_mm ≤ 0`, and whenever the diameter is positive
and `depth_mm ≥ diameter_mm` (full or overfull pipe, overfull clamped to
full) it returns exactly the full-pipe area `π·(D/2000)²`. -/
theorem C2_amended_wetted_area :
    ∀ depth_mm diameter_mm : ℝ,
      ((diameter_mm ≤ 0 ∨ depth_mm ≤ 0) → App.wetted_area_circular_m2 depth_mm diameter_mm = 0)
      ∧ (0 < diameter_mm → diameter_mm ≤ depth_mm →
          App.wetted_area_circular_m2 depth_mm diameter_mm = Real.pi * (diameter_mm / 2000)^2) := by
  intro depth_mm diameter_mm
  constructor
  · intro h
    simp only [App.wetted_area_circular_m2]
    rw [if_pos h]
  · intro hdia hle
    simp only [App.wetted_area_circular_m2]
    rw [if_neg (by push_neg; constructor <;> linarith)]
    rw [if_pos (by linarith)]
    ring

/-- Witness for C2 (amended): at diameter 2000 mm and depth 2000 mm the
area is the full-pipe value, and at diameter 5, depth 0 the area is `0`. -/
theorem C2_amended_wetted_area_witness :
    App.wetted_area_circular_m2 2000 2000 = Real.pi * ((2000:ℝ) / 2000)^2
    ∧ App.wetted_area_circular_m2 0 5 = 0 := by
  exact ⟨(C2_amended_wetted_area 2000 2000).2 (by norm_num) (by norm_num),
    (C2_amended_wetted_area 0 5).1 (by norm_num)⟩

/-! ## Claim C10: the two wetted-area implementations agree -/

/-- **C10**: the `wetted_area_circular_m2` implementations of `src/app.py`
and `src/app2.py` are extensionally equal: the depth clamping and the
`max 0` radicand guard of the `app2.py` variant never change the result. -/
theorem C10_wetted_area_equivalence :
    ∀ depth_mm diameter_mm : ℝ,
      App.wetted_area_circular_m2 depth_mm diameter_mm
        = App2.wetted_area_circular_m2 depth_mm diameter_mm := by
  intro depth_mm diameter_mm
  simp only [App.wetted_area_circular_m2, App2.wetted_area_circular_m2]
  by_cases h0 : diameter_mm ≤ 0 ∨ depth_mm ≤ 0
  · rw [if_pos h0, if_pos h0]
  · rw [if_neg h0, if_neg h0]
    push_neg at h0
    obtain ⟨hdia, hdep⟩ := h0
    by_cases hfull : depth_mm / 1000 ≥ diameter_mm / 1000
    · have hmin : min (depth_mm / 1000) (diameter_mm / 1000) = diameter_mm / 1000 :=
        min_eq_right hfull
      have hmax : max 0 (diameter_mm / 1000) = diameter_mm / 1000 :=
        max_eq_right (by linarith)
      rw [hmin, hmax, if_pos hfull, if_pos (le_refl _)]
    · push_neg at hfull
      have hmin : min (depth_mm / 1000) (diameter_mm / 1000) = depth_mm / 1000 :=
        min_eq_left hfull.le
      have hmax : max 0 (depth_mm / 1000) = depth_mm / 1000 :=
        max_eq_right (by linarith)
      rw [hmin, hmax, if_neg (not_le.mpr hfull), if_neg (not_le.mpr hfull)]
      have hrad : max 0 (2 * (diameter_mm / 1000 / 2) * (depth_mm / 1000)
          - depth_mm / 1000 * (depth_mm / 1000))
          = 2 * (diameter_mm / 1000 / 2) * (depth_mm / 1000)
            - depth_mm / 1000 * (depth_mm / 1000) := by
        apply max_eq_right
        nlinarith
      rw [hrad]

/-! ## Photo merge engine (`merge_photo_records`, `src/app.py` lines 1007-1075)

The Python merge keeps a dict `merged_by_hash : key → photo` together with a
list `insertion_order : List key`; every code path keeps the two in sync
(`insertion_order` lists exactly the keys of `merged_by_hash`, in first-insertion
order), so the pair is modelled as one association list in insertion order.

Photos are dicts; the model keeps the three keys the merge reads and writes:
* `name`  — `(photo.get("name") or "").strip()`: a missing key, `None` and
  the empty string behave identically, so `name : String` with `""` for
  missing/`None` is faithful (`.strip()` is modelled by `String.trim`).
* `data`  — `_ensure_bytes` normalizes `bytes`/`bytearray`/`memoryview` to
  one canonical `bytes` value and returns `None` otherwise; the model uses
  `Option Bytes`, `none` meaning "missing or not normalizable to bytes".
* `mime`  — `photo.get("mime")` and `dict.update` distinguish a missing key
  from a present falsy value; `mime : Option String` with `none` = missing
  key and `some ""` = present falsy value (`None` and `""` behave
  identically at every use site).

Entries of the input lists that are not dicts are skipped by the code before
any index-independent processing; the model's input lists contain only the
dict entries (the enumeration index of the code counts non-dicts too, but
the index only feeds never-colliding synthetic keys).

`hashlib.sha256(data).hexdigest()` is used purely as a content key; the
model takes the byte content itself as the key, which encodes exactly the
collision-freeness that the code relies on.  A hex digest can never equal a
synthetic `f"existing-{idx}"`/`f"new-{idx}"` key, which the `MKey` sum type
encodes. -/

namespace Merge

abbrev Bytes := List Nat

/-- Model of Python's `str.strip()` on the character list: drop leading and
trailing whitespace. -/
def stripList (cs : List Char) : List Char :=
  ((cs.dropWhile Char.isWhitespace).reverse.dropWhile Char.isWhitespace).reverse

/-- Model of Python's `str.strip()`. -/
def pyStrip (s : String) : String :=
  String.mk (stripList s.toList)

structure Photo where
  name : String
  data : Option Bytes
  mime : Option String
deriving DecidableEq

/-- Keys of `merged_by_hash`: a content digest or a synthetic per-position
key (`f"existing-{idx}"` / `f"new-{idx}"`). -/
inductive MKey where
  | digest : Bytes → MKey
  | fbEx : Nat → MKey
  | fbNew : Nat → MKey
deriving DecidableEq

abbrev MState := List (MKey × Photo)

def hasKey : MState → MKey → Bool
  | [], _ => false
  | (k', _) :: rest, k => if k' = k then true else hasKey rest k

/-- Replace (in place) the value stored at the first occurrence of key `k`. -/
def updAt : MState → MKey → (Photo → Photo) → MState
  | [], _, _ => []
  | (k', p') :: rest, k, f => if k' = k then (k', f p') :: rest else (k', p') :: updAt rest k f

/-- `merged_by_hash[digest].update(copy)`: every key present in `copy`
overwrites.  In the model `copy` always carries a `name`; `data`/`mime` are
taken from `copy` when present there (in every reachable call of the update
path `copy` carries its `data`). -/
def Photo.update (old c : Photo) : Photo :=
  { name := c.name, data := c.data <|> old.data, mime := c.mime <|> old.mime }

/-- Trimmed caption defaulting: `copy_name or "Site photo"` after `.strip()`. -/
def defaultName (s : String) : String :=
  if pyStrip s = "" then "Site photo" else pyStrip s

/-- Embedding of the local `_store` helper (lines 1028-1040 of `src/app.py`). -/
def pyStore (st : MState) (c : Photo) (dataBytes : Option Bytes) (fbk : MKey) : MState :=
  match dataBytes with
  | none => if hasKey st fbk then updAt st fbk (fun _ => c) else st ++ [(fbk, c)]
  | some bs =>
      if hasKey st (.digest bs) then updAt st (.digest bs) (fun old => old.update c)
      else st ++ [(MKey.digest bs, c)]

/-- The metadata update applied when a *new* photo's digest is already
present (lines 1063-1068 of `src/app.py`): the name is overwritten only when
the cleaned name is non-blank, the mime only when truthy. -/
def applyNew (old p : Photo) : Photo :=
  let o1 := if pyStrip p.name ≠ "" then { old with name := pyStrip p.name } else old
  match p.mime with
  | some m => if m ≠ "" then { o1 with mime := some m } else o1
  | none => o1

/-- The `for idx, photo in enumerate(existing_photos or [])` loop
(lines 1042-1051 of `src/app.py`). -/
def foldEx : MState → Nat → List Photo → MState
  | st, _, [] => st
  | st, idx, p :: rest =>
      foldEx (pyStore st { p with name := defaultName p.name } p.data (.fbEx idx)) (idx + 1) rest

/-- The `for idx, photo in enumerate(new_photos or [])` loop
(lines 1053-1073 of `src/app.py`).  A new photo whose payload does not
normalize to bytes is skipped (`continue`). -/
def foldNew : MState → Nat → List Photo → MState
  | st, _, [] => st
  | st, idx, p :: rest =>
      match p.data with
      | none => foldNew st (idx + 1) rest
      | some bs =>
          if hasKey st (.digest bs) then
            foldNew (updAt st (.digest bs) (fun old => applyNew old p)) (idx + 1) rest
          else
            foldNew (pyStore st { p with name := defaultName p.name } (some bs) (.fbNew idx))
              (idx + 1) rest

/-- Embedding of `merge_photo_records` (lines 1007-1075 of `src/app.py`):
fold the existing photos, fold the new photos, then return the stored
photos in insertion order. -/
def merge_photo_records (existing new : List Photo) : List Photo :=
  (foldNew (foldEx [] 0 existing) 0 new).map Prod.snd

/-! ### Photo-level model

Under the state invariant (digest-keyed entries carry exactly their key's
bytes as data, synthetic-keyed entries carry no bytes) the key component of
every entry is determined by the stored photo, and the whole merge factors
through the list of stored photos.  The photo-level recursions below are
that projection; `factor` lemmas connect them to the faithful embedding. -/

def hasData (ps : List Photo) (bs : Bytes) : Bool :=
  ps.any (fun p => decide (p.data = some bs))

/-- Update (in place) the first photo whose data is `some bs`. -/
def updData : List Photo → Bytes → (Photo → Photo) → List Photo
  | [], _, _ => []
  | p :: rest, bs, f => if p.data = some bs then f p :: rest else p :: updData rest bs f

def stepExP (ps : List Photo) (p : Photo) : List Photo :=
  let c := { p with name := defaultName p.name }
  match p.data with
  | none => ps ++ [c]
  | some bs => if hasData ps bs then updData ps bs (fun old => old.update c) else ps ++ [c]

def foldExP : List Photo → List Photo → List Photo
  | ps, [] => ps
  | ps, p :: rest => foldExP (stepExP ps p) rest

def stepNewP (ps : List Photo) (b : Photo) : List Photo :=
  match b.data with
  | none => ps
  | some bs =>
      if hasData ps bs then updData ps bs (fun old => applyNew old b)
      else ps ++ [{ b with name := defaultName b.name }]

def foldNewP : List Photo → List Photo → List Photo
  | ps, [] => ps
  | ps, b :: rest => foldNewP (stepNewP ps b) rest

/-- Photo-level rendering of the merge. -/
def mergeP (existing new : List Photo) : List Photo :=
  foldNewP (foldExP [] existing) new

/-- State invariant: an entry keyed by a digest stores exactly the digested
bytes; an entry keyed by a synthetic key stores no normalizable bytes. -/
def InvSt (st : MState) : Prop :=
  (∀ bs p, (MKey.digest bs, p) ∈ st → p.data = some bs)
  ∧ (∀ n p, (MKey.fbEx n, p) ∈ st → p.data = none)
  ∧ (∀ n p, (MKey.fbNew n, p) ∈ st → p.data = none)

theorem InvSt_nil : InvSt [] := by
  refine ⟨?_, ?_, ?_⟩ <;> intro _ _ h <;> simp at h

theorem InvSt_cons {k : MKey} {q : Photo} {st : MState} (h : InvSt ((k, q) :: st)) :
    InvSt st := by
  obtain ⟨h1, h2, h3⟩ := h
  exact ⟨fun bs p hp => h1 bs p (List.mem_cons_of_mem _ hp),
    fun n p hp => h2 n p (List.mem_cons_of_mem _ hp),
    fun n p hp => h3 n p (List.mem_cons_of_mem _ hp)⟩

theorem InvSt_append {st : MState} {k : MKey} {q : Photo} (h : InvSt st)
    (hk : match k with
      | MKey.digest bs => q.data = some bs
      | _ => q.data = none) :
    InvSt (st ++ [(k, q)]) := by
  obtain ⟨h1, h2, h3⟩ := h
  refine ⟨?_, ?_, ?_⟩
  · intro bs p hp
    rcases List.mem_append.1 hp with hin | hin
    · exact h1 bs p hin
    · simp only [List.mem_singleton, Prod.mk.injEq] at hin
      obtain ⟨hk', hp'⟩ := hin
      subst hp'
      cases k with
      | digest bs' => cases hk'; exact hk
      | fbEx n => cases hk'
      | fbNew n => cases hk'
  · intro n p hp
    rcases List.mem_append.1 hp with hin | hin
    · exact h2 n p hin
    · simp only [List.mem_singleton, Prod.mk.injEq] at hin
      obtain ⟨hk', hp'⟩ := hin
      subst hp'
      cases k with
      | digest bs' => cases hk'
      | fbEx n' => cases hk'; exact hk
      | fbNew n' => cases hk'
  · intro n p hp
    rcases List.mem_append.1 hp with hin | hin
    · exact h3 n p hin
    · simp only [List.mem_singleton, Prod.mk.injEq] at hin
      obtain ⟨hk', hp'⟩ := hin
      subst hp'
      cases k with
      | digest bs' => cases hk'
      | fbEx n' => cases hk'
      | fbNew n' => cases hk'; exact hk

end Merge


namespace Merge

/-! ### Factoring the state-level folds through the stored-photo lists -/

theorem data_of_key {st : MState} (h : InvSt st) {k : MKey} {q : Photo}
    (hm : (k, q) ∈ st) :
    (∀ bs, k = MKey.digest bs → q.data = some bs)
    ∧ ((∀ bs, k ≠ MKey.digest bs) → q.data = none) := by
  constructor
  · intro bs hk
    subst hk
    exact h.1 bs q hm
  · intro hk
    cases k with
    | digest bs => exact absurd rfl (hk bs)
    | fbEx n => exact h.2.1 n q hm
    | fbNew n => exact h.2.2 n q hm

/-- Under the invariant, an entry's key is a digest exactly when its photo
carries those bytes. -/
theorem key_iff_data {st : MState} (h : InvSt st) {k : MKey} {q : Photo}
    (hm : (k, q) ∈ st) (bs : Bytes) :
    k = MKey.digest bs ↔ q.data = some bs := by
  constructor
  · exact (data_of_key h hm).1 bs
  · intro hd
    cases k with
    | digest bs' =>
      have := h.1 bs' q hm
      rw [this] at hd
      injection hd with hd'
      rw [hd']
    | fbEx n =>
      have := h.2.1 n q hm
      rw [this] at hd
      cases hd
    | fbNew n =>
      have := h.2.2 n q hm
      rw [this] at hd
      cases hd

theorem hasKey_digest_eq_hasData {st : MState} (h : InvSt st) (bs : Bytes) :
    hasKey st (.digest bs) = hasData (st.map Prod.snd) bs := by
  induction st with
  | nil => rfl
  | cons e rest ih =>
    obtain ⟨k, q⟩ := e
    have hrest := InvSt_cons h
    have hiff := key_iff_data h (List.mem_cons_self (k, q) rest) bs
    have ihr := ih hrest
    simp only [hasData] at ihr
    simp only [hasKey, List.map_cons, hasData, List.any_cons]
    by_cases hk : k = MKey.digest bs
    · have hd : q.data = some bs := hiff.1 hk
      simp [hk, hd]
    · have hd : ¬ q.data = some bs := fun hd => hk (hiff.2 hd)
      simp [hk, hd, ihr]

theorem map_snd_updAt_digest {st : MState} (h : InvSt st) (bs : Bytes) (f : Photo → Photo) :
    (updAt st (.digest bs) f).map Prod.snd = updData (st.map Prod.snd) bs f := by
  induction st with
  | nil => rfl
  | cons e rest ih =>
    obtain ⟨k, q⟩ := e
    have hrest := InvSt_cons h
    have hiff := key_iff_data h (List.mem_cons_self (k, q) rest) bs
    simp only [updAt, List.map_cons, updData]
    by_cases hk : k = MKey.digest bs
    · have hd : q.data = some bs := hiff.1 hk
      simp [hk, hd]
    · have hd : ¬ q.data = some bs := fun hd => hk (hiff.2 hd)
      simp [hk, hd, ih hrest]

theorem InvSt_updAt_digest {st : MState} (h : InvSt st) (bs : Bytes) {f : Photo → Photo}
    (hf : ∀ q, q.data = some bs → (f q).data = some bs) :
    InvSt (updAt st (.digest bs) f) := by
  induction st with
  | nil => exact InvSt_nil
  | cons e rest ih =>
    obtain ⟨k, q⟩ := e
    have hrest := InvSt_cons h
    have hhead := data_of_key h (List.mem_cons_self (k, q) rest)
    simp only [updAt]
    by_cases hk : k = MKey.digest bs
    · rw [if_pos hk]
      have hd : q.data = some bs := (key_iff_data h (List.mem_cons_self (k, q) rest) bs).1 hk
      subst hk
      refine ⟨?_, ?_, ?_⟩
      · intro bs' p hp
        rcases List.mem_cons.1 hp with he | hin
        · have h1 := congrArg Prod.fst he
          have h2 := congrArg Prod.snd he
          simp only at h1 h2
          injection h1 with hbs
          subst hbs
          rw [h2]
          exact hf q hd
        · exact hrest.1 bs' p hin
      · intro n p hp
        rcases List.mem_cons.1 hp with he | hin
        · have h1 := congrArg Prod.fst he
          cases h1
        · exact hrest.2.1 n p hin
      · intro n p hp
        rcases List.mem_cons.1 hp with he | hin
        · have h1 := congrArg Prod.fst he
          cases h1
        · exact hrest.2.2 n p hin
    · rw [if_neg hk]
      have hr := ih hrest
      refine ⟨?_, ?_, ?_⟩
      · intro bs' p hp
        rcases List.mem_cons.1 hp with he | hin
        · have h1 := congrArg Prod.fst he
          have h2 := congrArg Prod.snd he
          simp only at h1 h2
          rw [h2]
          exact (data_of_key h (List.mem_cons_self (k, q) rest)).1 bs' h1.symm
        · exact hr.1 bs' p hin
      · intro n p hp
        rcases List.mem_cons.1 hp with he | hin
        · have h1 := congrArg Prod.fst he
          have h2 := congrArg Prod.snd he
          simp only at h1 h2
          rw [h2]
          cases h1
          exact h.2.1 n q (List.mem_cons_self _ _)
        · exact hr.2.1 n p hin
      · intro n p hp
        rcases List.mem_cons.1 hp with he | hin
        · have h1 := congrArg Prod.fst he
          have h2 := congrArg Prod.snd he
          simp only at h1 h2
          rw [h2]
          cases h1
          exact h.2.2 n q (List.mem_cons_self _ _)
        · exact hr.2.2 n p hin

end Merge

namespace Merge

theorem applyNew_data (old p : Photo) : (applyNew old p).data = old.data := by
  cases hm : p.mime with
  | none =>
    simp only [applyNew, hm]
    split <;> rfl
  | some m =>
    simp only [applyNew, hm]
    split <;> (split <;> rfl)

theorem update_data (old c : Photo) : (Photo.update old c).data = (c.data <|> old.data) := rfl

theorem hasKey_updAt (st : MState) (k k' : MKey) (f : Photo → Photo) :
    hasKey (updAt st k f) k' = hasKey st k' := by
  induction st with
  | nil => rfl
  | cons e rest ih =>
    obtain ⟨k₀, q⟩ := e
    simp only [updAt]
    by_cases hk : k₀ = k
    · rw [if_pos hk]
      simp [hasKey]
    · rw [if_neg hk]
      simp [hasKey, ih]

theorem hasKey_append (st : MState) (k k' : MKey) (q : Photo) :
    hasKey (st ++ [(k, q)]) k' = (hasKey st k' || decide (k = k')) := by
  induction st with
  | nil => simp [hasKey]
  | cons e rest ih =>
    obtain ⟨k₀, q₀⟩ := e
    simp only [List.cons_append, hasKey]
    by_cases hk : k₀ = k'
    · simp [hk]
    · simp [hk, ih]

theorem map_snd_append (st : MState) (k : MKey) (q : Photo) :
    (st ++ [(k, q)]).map Prod.snd = st.map Prod.snd ++ [q] := by
  simp

/-- Freshness of upcoming synthetic existing-photo keys. -/
def FreshEx (st : MState) (i : Nat) : Prop :=
  ∀ j, i ≤ j → hasKey st (.fbEx j) = false

theorem foldNew_factor (B : List Photo) :
    ∀ (st : MState) (i : Nat), InvSt st →
      InvSt (foldNew st i B)
      ∧ (foldNew st i B).map Prod.snd = foldNewP (st.map Prod.snd) B := by
  induction B with
  | nil => intro st i h; exact ⟨h, rfl⟩
  | cons p rest ih =>
    intro st i h
    cases hd : p.data with
    | none =>
      have := ih st (i + 1) h
      simp only [foldNew, foldNewP, stepNewP, hd]
      exact this
    | some bs =>
      cases hk : hasKey st (.digest bs) with
      | true =>
        have hinv : InvSt (updAt st (.digest bs) (fun old => applyNew old p)) :=
          InvSt_updAt_digest h bs (fun q hq => (applyNew_data q p).trans hq)
        have := ih _ (i + 1) hinv
        have hdat : hasData (st.map Prod.snd) bs = true := by
          rw [← hasKey_digest_eq_hasData h bs]; exact hk
        simp only [foldNew, foldNewP, stepNewP, hd, hk, if_true, hdat]
        rw [this.2, map_snd_updAt_digest h bs]
        exact ⟨this.1, rfl⟩
      | false =>
        have hinv : InvSt (st ++ [(MKey.digest bs, { p with name := defaultName p.name })]) := by
          apply InvSt_append h
          simpa using hd
        have := ih _ (i + 1) hinv
        rw [hd] at this
        have hdat : hasData (st.map Prod.snd) bs = false := by
          rw [← hasKey_digest_eq_hasData h bs]; exact hk
        simp only [foldNew, foldNewP, stepNewP, hd, hk, pyStore, Bool.false_eq_true,
          if_false, hdat]
        rw [this.2, map_snd_append]
        exact ⟨this.1, rfl⟩

theorem foldEx_factor (A : List Photo) :
    ∀ (st : MState) (i : Nat), InvSt st → FreshEx st i →
      InvSt (foldEx st i A)
      ∧ (foldEx st i A).map Prod.snd = foldExP (st.map Prod.snd) A := by
  induction A with
  | nil => intro st i h _; exact ⟨h, rfl⟩
  | cons p rest ih =>
    intro st i h hfr
    cases hd : p.data with
    | none =>
      have hkey : hasKey st (.fbEx i) = false := hfr i (le_refl i)
      have hinv : InvSt (st ++ [(MKey.fbEx i, { p with name := defaultName p.name })]) := by
        apply InvSt_append h
        simpa using hd
      have hfr' : FreshEx (st ++ [(MKey.fbEx i, { p with name := defaultName p.name })]) (i + 1) := by
        intro j hj
        rw [hasKey_append]
        have h1 : hasKey st (.fbEx j) = false := hfr j (Nat.le_of_succ_le hj)
        have h2 : MKey.fbEx i ≠ MKey.fbEx j := by
          intro hcon
          injection hcon with hij
          omega
        simp [h1, h2]
      have := ih _ (i + 1) hinv hfr'
      rw [hd] at this
      simp only [foldEx, foldExP, stepExP, pyStore, hd, hkey, Bool.false_eq_true, if_false]
      rw [this.2, map_snd_append]
      exact ⟨this.1, rfl⟩
    | some bs =>
      cases hk : hasKey st (.digest bs) with
      | true =>
        have hinv : InvSt (updAt st (.digest bs)
            (fun old => old.update { p with name := defaultName p.name })) := by
          apply InvSt_updAt_digest h bs
          intro q hq
          rw [update_data]
          simp [hd]
        have hfr' : FreshEx (updAt st (.digest bs)
            (fun old => old.update { p with name := defaultName p.name })) (i + 1) := by
          intro j hj
          rw [hasKey_updAt]
          exact hfr j (Nat.le_of_succ_le hj)
        have := ih _ (i + 1) hinv hfr'
        rw [hd] at this
        have hdat : hasData (st.map Prod.snd) bs = true := by
          rw [← hasKey_digest_eq_hasData h bs]; exact hk
        simp only [foldEx, foldExP, stepExP, pyStore, hd, hk, if_true, hdat]
        rw [this.2, map_snd_updAt_digest h bs]
        exact ⟨this.1, rfl⟩
      | false =>
        have hinv : InvSt (st ++ [(MKey.digest bs, { p with name := defaultName p.name })]) := by
          apply InvSt_append h
          simpa using hd
        have hfr' : FreshEx (st ++ [(MKey.digest bs, { p with name := defaultName p.name })]) (i + 1) := by
          intro j hj
          rw [hasKey_append]
          have h1 : hasKey st (.fbEx j) = false := hfr j (Nat.le_of_succ_le hj)
          simp [h1]
        have := ih _ (i + 1) hinv hfr'
        rw [hd] at this
        have hdat : hasData (st.map Prod.snd) bs = false := by
          rw [← hasKey_digest_eq_hasData h bs]; exact hk
        simp only [foldEx, foldExP, stepExP, pyStore, hd, hk, Bool.false_eq_true,
          if_false, hdat]
        rw [this.2, map_snd_append]
        exact ⟨this.1, rfl⟩

/-- The faithful embedding of the merge agrees with its photo-level model. -/
theorem merge_photo_records_eq_mergeP (A B : List Photo) :
    merge_photo_records A B = mergeP A B := by
  have hex := foldEx_factor A [] 0 InvSt_nil (fun j _ => rfl)
  have hnew := foldNew_factor B (foldEx [] 0 A) 0 hex.1
  rw [merge_photo_records, hnew.2, hex.2]
  rfl

end Merge

namespace Merge

/-! ### Properties of the strip model -/

def noLeadWs : List Char → Bool
  | [] => true
  | c :: _ => !c.isWhitespace

theorem noLeadWs_dropWhile (cs : List Char) :
    noLeadWs (cs.dropWhile Char.isWhitespace) = true := by
  induction cs with
  | nil => rfl
  | cons c rest ih =>
    rw [List.dropWhile_cons]
    by_cases hc : c.isWhitespace = true
    · simpa [hc] using ih
    · simp [noLeadWs, hc]

theorem dropWhile_of_noLead (cs : List Char) (h : noLeadWs cs = true) :
    cs.dropWhile Char.isWhitespace = cs := by
  cases cs with
  | nil => rfl
  | cons c rest =>
    simp only [noLeadWs, Bool.not_eq_true'] at h
    rw [List.dropWhile_cons, h]
    simp

theorem noLeadWs_of_front {m l : List Char} (hp : m <+: l) (h : noLeadWs l = true) :
    noLeadWs m = true := by
  cases m with
  | nil => rfl
  | cons c rest =>
    obtain ⟨t, ht⟩ := hp
    subst ht
    exact h

theorem stripList_front (cs : List Char) :
    stripList cs <+: cs.dropWhile Char.isWhitespace := by
  have hsuf : ((cs.dropWhile Char.isWhitespace).reverse.dropWhile Char.isWhitespace)
      <:+ (cs.dropWhile Char.isWhitespace).reverse := List.dropWhile_suffix _
  have h2 := List.reverse_prefix.mpr hsuf
  simpa [stripList, List.reverse_reverse] using h2

theorem noLeadWs_stripList (cs : List Char) : noLeadWs (stripList cs) = true :=
  noLeadWs_of_front (stripList_front cs) (noLeadWs_dropWhile cs)

theorem stripList_idem (cs : List Char) : stripList (stripList cs) = stripList cs := by
  have h1 : (stripList cs).dropWhile Char.isWhitespace = stripList cs :=
    dropWhile_of_noLead _ (noLeadWs_stripList cs)
  have h2 : (stripList cs).reverse
      = ((cs.dropWhile Char.isWhitespace).reverse).dropWhile Char.isWhitespace := by
    simp [stripList, List.reverse_reverse]
  have h3 : ((stripList cs).reverse).dropWhile Char.isWhitespace = (stripList cs).reverse := by
    rw [h2]
    exact dropWhile_of_noLead _ (noLeadWs_dropWhile _)
  calc stripList (stripList cs)
      = (((stripList cs).dropWhile Char.isWhitespace).reverse.dropWhile
          Char.isWhitespace).reverse := rfl
    _ = ((stripList cs).reverse.dropWhile Char.isWhitespace).reverse := by rw [h1]
    _ = ((stripList cs).reverse).reverse := by rw [h3]
    _ = stripList cs := List.reverse_reverse _

theorem pyStrip_idem (s : String) : pyStrip (pyStrip s) = pyStrip s := by
  simp only [pyStrip]
  rw [show (String.mk (stripList s.toList)).toList = stripList s.toList from rfl,
    stripList_idem]

theorem pyStrip_site_photo : pyStrip "Site photo" = "Site photo" := by decide

theorem defaultName_idem (s : String) : defaultName (defaultName s) = defaultName s := by
  unfold defaultName
  by_cases h : pyStrip s = ""
  · rw [if_pos h, pyStrip_site_photo]
    simp
  · rw [if_neg h, pyStrip_idem, if_neg h]

theorem defaultName_of_strip (s : String) (h : pyStrip s ≠ "") :
    defaultName (pyStrip s) = pyStrip s := by
  unfold defaultName
  rw [pyStrip_idem, if_neg h]

/-! ### Composite effect of a chain of new-photo metadata updates -/

theorem photoExt {p q : Photo} (h1 : p.name = q.name) (h2 : p.data = q.data)
    (h3 : p.mime = q.mime) : p = q := by
  cases p
  cases q
  simp_all

theorem applyNew_name (old p : Photo) :
    (applyNew old p).name = if pyStrip p.name ≠ "" then pyStrip p.name else old.name := by
  cases hm : p.mime with
  | none =>
    simp only [applyNew, hm]
    split <;> simp_all
  | some m =>
    simp only [applyNew, hm]
    split <;> (split <;> simp_all)

theorem applyNew_mime (old p : Photo) :
    (applyNew old p).mime = (match p.mime with
      | some m => if m ≠ "" then some m else old.mime
      | none => old.mime) := by
  cases hm : p.mime with
  | none =>
    simp only [applyNew, hm]
    split <;> rfl
  | some m =>
    simp only [applyNew, hm]
    split <;> (split <;> rfl)

/-- Left fold of the new-photo metadata update over a list of suppliers. -/
def applyAllL (p : Photo) (U : List Photo) : Photo := U.foldl applyNew p

/-- The last non-blank stripped name supplied by a list of new photos. -/
def lastNonBlankName : List Photo → Option String
  | [] => none
  | u :: U =>
      match lastNonBlankName U with
      | some a => some a
      | none => if pyStrip u.name ≠ "" then some (pyStrip u.name) else none

/-- The last truthy mime supplied by a list of new photos. -/
def lastTruthyMime : List Photo → Option String
  | [] => none
  | u :: U =>
      match lastTruthyMime U with
      | some a => some a
      | none =>
          match u.mime with
          | some m => if m ≠ "" then some m else none
          | none => none

theorem applyAllL_data (U : List Photo) : ∀ p, (applyAllL p U).data = p.data := by
  induction U with
  | nil => intro p; rfl
  | cons u U ih =>
    intro p
    show (applyAllL (applyNew p u) U).data = p.data
    rw [ih, applyNew_data]

theorem applyAllL_name (U : List Photo) :
    ∀ p, (applyAllL p U).name = (lastNonBlankName U).getD p.name := by
  induction U with
  | nil => intro p; rfl
  | cons u U ih =>
    intro p
    show (applyAllL (applyNew p u) U).name = _
    rw [ih, applyNew_name]
    cases hU : lastNonBlankName U with
    | some a => simp [lastNonBlankName, hU]
    | none =>
      by_cases hn : pyStrip u.name ≠ ""
      · simp [lastNonBlankName, hU, hn]
      · simp [lastNonBlankName, hU, hn]

theorem applyAllL_mime (U : List Photo) :
    ∀ p, (applyAllL p U).mime = (lastTruthyMime U).elim p.mime some := by
  induction U with
  | nil => intro p; rfl
  | cons u U ih =>
    intro p
    show (applyAllL (applyNew p u) U).mime = _
    rw [ih, applyNew_mime]
    cases hU : lastTruthyMime U with
    | some a => simp [lastTruthyMime, hU]
    | none =>
      cases hm : p.mime with
      | none =>
        simp only [lastTruthyMime, hU, hm, Option.elim]
        cases hum : u.mime with
        | none => simp
        | some m => by_cases hm' : m ≠ "" <;> simp [hm']
      | some m0 =>
        simp only [lastTruthyMime, hU, hm, Option.elim]
        cases hum : u.mime with
        | none => simp
        | some m => by_cases hm' : m ≠ "" <;> simp [hm']

end Merge

namespace Merge

/-! ### Characterization of the new-photo fold -/

/-- The new photos that target the slot holding bytes `bs`. -/
def updatesFor (B : List Photo) (bs : Bytes) : List Photo :=
  B.filter (fun b => decide (b.data = some bs))

/-- Pointwise effect of folding the new-photo list `B` on already-present
slots. -/
def mapUpd (ps B : List Photo) : List Photo :=
  ps.map (fun p =>
    match p.data with
    | some bs => applyAllL p (updatesFor B bs)
    | none => p)

/-- The entries appended by folding the new-photo list `B` over a state
whose stored photos are `ps` (tracking coverage through `ps`). -/
def newEntriesAux : List Photo → List Photo → List Photo
  | _, [] => []
  | ps, b :: rest =>
      match b.data with
      | none => newEntriesAux ps rest
      | some bs =>
          if hasData ps bs then newEntriesAux ps rest
          else
            applyAllL { b with name := defaultName b.name } (updatesFor rest bs)
              :: newEntriesAux (ps ++ [{ b with name := defaultName b.name }]) rest

/-- No two stored photos carry the same normalized byte payload. -/
def DistinctData (ps : List Photo) : Prop :=
  (ps.map Photo.data).Pairwise (fun d e => ∀ bs, d = some bs → e ≠ some bs)

theorem applyAllL_cons (p u : Photo) (U : List Photo) :
    applyAllL p (u :: U) = applyAllL (applyNew p u) U := rfl

theorem updatesFor_cons_self {b : Photo} {bs : Bytes} (hb : b.data = some bs)
    (rest : List Photo) : updatesFor (b :: rest) bs = b :: updatesFor rest bs := by
  simp [updatesFor, List.filter_cons, hb]

theorem updatesFor_cons_other {b : Photo} {bs : Bytes} (hb : b.data ≠ some bs)
    (rest : List Photo) : updatesFor (b :: rest) bs = updatesFor rest bs := by
  simp [updatesFor, List.filter_cons, hb]

theorem hasData_nil (bs : Bytes) : hasData [] bs = false := rfl

theorem hasData_append (ps : List Photo) (c : Photo) (bs : Bytes) :
    hasData (ps ++ [c]) bs = (hasData ps bs || decide (c.data = some bs)) := by
  simp [hasData]

theorem hasData_eq_false_iff (ps : List Photo) (bs : Bytes) :
    hasData ps bs = false ↔ ∀ p ∈ ps, p.data ≠ some bs := by
  simp [hasData]

theorem mapUpd_nil (ps : List Photo) : mapUpd ps [] = ps := by
  induction ps with
  | nil => rfl
  | cons p tail ih =>
    simp only [mapUpd, List.map_cons] at ih ⊢
    rw [ih]
    cases hp : p.data <;> simp [applyAllL, updatesFor]

theorem mapUpd_append (xs ys B : List Photo) :
    mapUpd (xs ++ ys) B = mapUpd xs B ++ mapUpd ys B := by
  simp [mapUpd]

theorem mapUpd_cons_none {b : Photo} (hb : b.data = none) (ps rest : List Photo) :
    mapUpd ps (b :: rest) = mapUpd ps rest := by
  unfold mapUpd
  apply List.map_congr_left
  intro p _
  cases hp : p.data with
  | none => rfl
  | some bs' =>
    show applyAllL p (updatesFor (b :: rest) bs') = applyAllL p (updatesFor rest bs')
    rw [updatesFor_cons_other (by rw [hb]; exact fun h => Option.noConfusion h) rest]

theorem mapUpd_cons_fresh {b : Photo} {bs : Bytes} (hb : b.data = some bs)
    (ps rest : List Photo) (hnd : hasData ps bs = false) :
    mapUpd ps (b :: rest) = mapUpd ps rest := by
  unfold mapUpd
  apply List.map_congr_left
  intro p hp
  have hpd : p.data ≠ some bs := (hasData_eq_false_iff ps bs).1 hnd p hp
  cases hq : p.data with
  | none => rfl
  | some bs' =>
    have hbs : bs' ≠ bs := by
      intro hcon
      exact hpd (by rw [hq, hcon])
    show applyAllL p (updatesFor (b :: rest) bs') = applyAllL p (updatesFor rest bs')
    rw [updatesFor_cons_other (by rw [hb]; exact fun h => hbs (Option.some.inj h).symm) rest]

theorem hasData_of_map_data : ∀ {ps qs : List Photo},
    ps.map Photo.data = qs.map Photo.data → ∀ bs, hasData ps bs = hasData qs bs := by
  intro ps
  induction ps with
  | nil =>
    intro qs h bs
    cases qs with
    | nil => rfl
    | cons q qt => simp at h
  | cons p pt ih =>
    intro qs h bs
    cases qs with
    | nil => simp at h
    | cons q qt =>
      simp only [List.map_cons, List.cons.injEq] at h
      obtain ⟨h1, h2⟩ := h
      simp only [hasData, List.any_cons]
      rw [h1]
      have hrec := ih h2 bs
      simp only [hasData] at hrec
      rw [hrec]

theorem updData_map_data {ps : List Photo} {bs : Bytes} {f : Photo → Photo}
    (hf : ∀ q, q.data = some bs → (f q).data = some bs) :
    (updData ps bs f).map Photo.data = ps.map Photo.data := by
  induction ps with
  | nil => rfl
  | cons p tail ih =>
    simp only [updData]
    by_cases hp : p.data = some bs
    · rw [if_pos hp]
      simp only [List.map_cons]
      rw [hf p hp, hp]
    · rw [if_neg hp]
      simp only [List.map_cons, ih]

theorem DistinctData_nil : DistinctData [] := List.Pairwise.nil

theorem DistinctData_updData {ps : List Photo} {bs : Bytes} {f : Photo → Photo}
    (hD : DistinctData ps) (hf : ∀ q, q.data = some bs → (f q).data = some bs) :
    DistinctData (updData ps bs f) := by
  unfold DistinctData
  rw [updData_map_data hf]
  exact hD

theorem DistinctData_append_one {ps : List Photo} {c : Photo} (hD : DistinctData ps)
    (hc : ∀ bs, c.data = some bs → hasData ps bs = false) :
    DistinctData (ps ++ [c]) := by
  unfold DistinctData at *
  rw [List.map_append, List.pairwise_append]
  refine ⟨hD, List.pairwise_singleton _ _, ?_⟩
  intro d hd e he bs hdbs
  simp only [List.map_cons, List.map_nil, List.mem_singleton] at he
  subst he
  intro hcon
  have hps := hc bs hcon
  rw [hasData_eq_false_iff] at hps
  simp only [List.mem_map] at hd
  obtain ⟨p, hp, hpd⟩ := hd
  exact hps p hp (by rw [hpd, hdbs])

theorem mapUpd_cons_upd {b : Photo} {bs : Bytes} (hb : b.data = some bs) (rest : List Photo) :
    ∀ ps, DistinctData ps →
      mapUpd ps (b :: rest) = mapUpd (updData ps bs (fun old => applyNew old b)) rest := by
  intro ps
  induction ps with
  | nil => intro _; rfl
  | cons p tail ih =>
    intro hD
    unfold DistinctData at hD
    rw [List.map_cons, List.pairwise_cons] at hD
    obtain ⟨hhead, htail⟩ := hD
    by_cases hp : p.data = some bs
    · have htail_no : hasData tail bs = false := by
        rw [hasData_eq_false_iff]
        intro q hq hqd
        exact (hhead q.data (List.mem_map_of_mem _ hq) bs hp) hqd
      have h1 : mapUpd (p :: tail) (b :: rest)
          = applyAllL p (updatesFor (b :: rest) bs) :: mapUpd tail (b :: rest) := by
        simp only [mapUpd, List.map_cons, hp]
      have h2 : updData (p :: tail) bs (fun old => applyNew old b)
          = applyNew p b :: tail := by
        simp only [updData, if_pos hp]
      have hnd : (applyNew p b).data = some bs := by
        rw [applyNew_data]; exact hp
      have h3 : mapUpd (applyNew p b :: tail) rest
          = applyAllL (applyNew p b) (updatesFor rest bs) :: mapUpd tail rest := by
        simp only [mapUpd, List.map_cons, hnd]
      rw [h1, h2, h3]
      congr 1
      · rw [updatesFor_cons_self hb, applyAllL_cons]
      · exact mapUpd_cons_fresh hb tail rest htail_no
    · have h2 : updData (p :: tail) bs (fun old => applyNew old b)
          = p :: updData tail bs (fun old => applyNew old b) := by
        simp only [updData, if_neg hp]
      rw [h2]
      simp only [mapUpd, List.map_cons]
      congr 1
      · cases hq : p.data with
        | none => rfl
        | some bs' =>
          have hbs : bs' ≠ bs := by
            intro hcon
            exact hp (by rw [hq, hcon])
          show applyAllL p (updatesFor (b :: rest) bs') = applyAllL p (updatesFor rest bs')
          rw [updatesFor_cons_other
            (by rw [hb]; exact fun h => hbs (Option.some.inj h).symm) rest]
      · exact ih htail

theorem newEntriesAux_congr (B : List Photo) : ∀ ps qs : List Photo,
    (∀ bs, hasData ps bs = hasData qs bs) → newEntriesAux ps B = newEntriesAux qs B := by
  induction B with
  | nil => intro ps qs _; rfl
  | cons b rest ih =>
    intro ps qs h
    cases hb : b.data with
    | none =>
      simp only [newEntriesAux, hb]
      exact ih ps qs h
    | some bs =>
      simp only [newEntriesAux, hb]
      rw [h bs]
      cases hq : hasData qs bs with
      | true =>
        simp only [if_pos rfl]
        exact ih ps qs h
      | false =>
        simp only [Bool.false_eq_true, if_false]
        congr 1
        apply ih
        intro bs'
        rw [hasData_append, hasData_append, h bs']

/-- Characterization of the new-photo fold: present slots are updated
pointwise by their matching suppliers; fresh contents are appended in
first-occurrence order. -/
theorem foldNewP_char (B : List Photo) : ∀ ps : List Photo, DistinctData ps →
    foldNewP ps B = mapUpd ps B ++ newEntriesAux ps B := by
  induction B with
  | nil =>
    intro ps _
    show ps = mapUpd ps [] ++ newEntriesAux ps []
    rw [mapUpd_nil]
    simp [newEntriesAux]
  | cons b rest ih =>
    intro ps hD
    cases hb : b.data with
    | none =>
      have h1 : stepNewP ps b = ps := by
        simp [stepNewP, hb]
      show foldNewP (stepNewP ps b) rest = _
      rw [h1, ih ps hD, mapUpd_cons_none hb]
      have h2 : newEntriesAux ps (b :: rest) = newEntriesAux ps rest := by
        simp [newEntriesAux, hb]
      rw [h2]
    | some bs =>
      cases hps : hasData ps bs with
      | true =>
        have h1 : stepNewP ps b = updData ps bs (fun old => applyNew old b) := by
          simp [stepNewP, hb, hps]
        have hf : ∀ q : Photo, q.data = some bs → (applyNew q b).data = some bs :=
          fun q hq => by rw [applyNew_data]; exact hq
        have hD' : DistinctData (updData ps bs (fun old => applyNew old b)) :=
          DistinctData_updData hD hf
        show foldNewP (stepNewP ps b) rest = _
        rw [h1, ih _ hD']
        have hcong : newEntriesAux (updData ps bs (fun old => applyNew old b)) rest
            = newEntriesAux ps rest :=
          newEntriesAux_congr rest _ ps (hasData_of_map_data (updData_map_data hf))
        have h2 : newEntriesAux ps (b :: rest) = newEntriesAux ps rest := by
          simp [newEntriesAux, hb, hps]
        rw [hcong, h2, mapUpd_cons_upd hb rest ps hD]
      | false =>
        have hcd : Photo.data { b with name := defaultName b.name } = some bs := hb
        have h1 : stepNewP ps b = ps ++ [{ b with name := defaultName b.name }] := by
          simp [stepNewP, hb, hps]
        have hD' : DistinctData (ps ++ [{ b with name := defaultName b.name }]) := by
          apply DistinctData_append_one hD
          intro bs' h'
          rw [hcd] at h'
          injection h' with h''
          rw [← h'']
          exact hps
        show foldNewP (stepNewP ps b) rest = _
        rw [h1, ih _ hD', mapUpd_append]
        have h2 : mapUpd [{ b with name := defaultName b.name }] rest
            = [applyAllL { b with name := defaultName b.name } (updatesFor rest bs)] := by
          simp only [mapUpd, List.map_cons, List.map_nil, hb]
        rw [h2, mapUpd_cons_fresh hb ps rest hps]
        have h3 : newEntriesAux ps (b :: rest)
            = applyAllL { b with name := defaultName b.name } (updatesFor rest bs)
              :: newEntriesAux (ps ++ [{ b with name := defaultName b.name }]) rest := by
          simp [newEntriesAux, hb, hps]
        rw [h3]
        simp [List.append_assoc]

/-! ### Absorption: re-applying a chain of updates is a no-op -/

theorem applyAllL_idem (p : Photo) (U : List Photo) :
    applyAllL (applyAllL p U) U = applyAllL p U := by
  apply photoExt
  · rw [applyAllL_name, applyAllL_name]
    cases lastNonBlankName U <;> simp
  · rw [applyAllL_data, applyAllL_data]
  · rw [applyAllL_mime, applyAllL_mime]
    cases lastTruthyMime U <;> simp

theorem reapply_first (b : Photo) (U' : List Photo) :
    applyAllL (applyAllL { b with name := defaultName b.name } U') (b :: U')
      = applyAllL { b with name := defaultName b.name } U' := by
  rw [applyAllL_cons]
  apply photoExt
  · rw [applyAllL_name, applyAllL_name, applyNew_name, applyAllL_name]
    cases hU : lastNonBlankName U' with
    | some a => simp
    | none =>
      simp only [Option.getD_none]
      by_cases hb : pyStrip b.name ≠ ""
      · rw [if_pos hb]
        show pyStrip b.name = Photo.name { b with name := defaultName b.name }
        show pyStrip b.name = defaultName b.name
        unfold defaultName
        rw [if_neg (by simpa using hb)]
      · rw [if_neg hb]
  · rw [applyAllL_data, applyNew_data, applyAllL_data]
  · rw [applyAllL_mime, applyAllL_mime, applyNew_mime, applyAllL_mime]
    cases hU : lastTruthyMime U' with
    | some a => simp
    | none =>
      simp only [Option.elim]
      cases hm : b.mime with
      | none => rfl
      | some m => simp

theorem newEntriesAux_absorb (B : List Photo) : ∀ ps : List Photo,
    ∀ q ∈ newEntriesAux ps B, ∀ bs, q.data = some bs →
      applyAllL q (updatesFor B bs) = q ∧ hasData ps bs = false := by
  induction B with
  | nil =>
    intro ps q hq
    simp [newEntriesAux] at hq
  | cons b rest ih =>
    intro ps q hq bs hqd
    cases hb : b.data with
    | none =>
      rw [show newEntriesAux ps (b :: rest) = newEntriesAux ps rest by
        simp [newEntriesAux, hb]] at hq
      have := ih ps q hq bs hqd
      refine ⟨?_, this.2⟩
      rw [updatesFor_cons_other (by rw [hb]; exact fun h => Option.noConfusion h) rest]
      exact this.1
    | some bs₀ =>
      cases hps : hasData ps bs₀ with
      | true =>
        rw [show newEntriesAux ps (b :: rest) = newEntriesAux ps rest by
          simp [newEntriesAux, hb, hps]] at hq
        have := ih ps q hq bs hqd
        have hne : bs ≠ bs₀ := by
          intro hcon
          rw [hcon] at this
          rw [this.2] at hps
          cases hps
        refine ⟨?_, this.2⟩
        rw [updatesFor_cons_other
          (by rw [hb]; exact fun h => hne (Option.some.inj h).symm) rest]
        exact this.1
      | false =>
        rw [show newEntriesAux ps (b :: rest)
            = applyAllL { b with name := defaultName b.name } (updatesFor rest bs₀)
              :: newEntriesAux (ps ++ [{ b with name := defaultName b.name }]) rest by
          simp [newEntriesAux, hb, hps]] at hq
        rcases List.mem_cons.1 hq with hq0 | hqr
        · subst hq0
          have hdq : bs = bs₀ := by
            rw [applyAllL_data] at hqd
            have : b.data = some bs := hqd
            rw [hb] at this
            exact (Option.some.inj this).symm
          subst hdq
          refine ⟨?_, hps⟩
          rw [updatesFor_cons_self hb rest]
          exact reapply_first b (updatesFor rest bs)
        · have := ih _ q hqr bs hqd
          have hcov : hasData (ps ++ [{ b with name := defaultName b.name }]) bs = false :=
            this.2
          rw [hasData_append] at hcov
          have h1 : hasData ps bs = false := by
            cases h' : hasData ps bs
            · rfl
            · rw [h'] at hcov; cases hcov
          have h2 : Photo.data { b with name := defaultName b.name } ≠ some bs := by
            intro hcon
            rw [h1] at hcov
            simp only [Bool.false_or] at hcov
            rw [decide_eq_false_iff_not] at hcov
            exact hcov hcon
          refine ⟨?_, h1⟩
          rw [updatesFor_cons_other (by intro hcon; exact h2 hcon) rest]
          exact this.1

/-! ### Invariants of the photo-level folds -/

theorem updData_mem {ps : List Photo} {bs : Bytes} {f : Photo → Photo} {q : Photo}
    (h : q ∈ updData ps bs f) : q ∈ ps ∨ ∃ p, p ∈ ps ∧ q = f p := by
  induction ps with
  | nil => simp [updData] at h
  | cons p tail ih =>
    simp only [updData] at h
    by_cases hp : p.data = some bs
    · rw [if_pos hp] at h
      rcases List.mem_cons.1 h with h0 | h0
      · exact Or.inr ⟨p, List.mem_cons_self _ _, h0⟩
      · exact Or.inl (List.mem_cons_of_mem _ h0)
    · rw [if_neg hp] at h
      rcases List.mem_cons.1 h with h0 | h0
      · exact Or.inl (h0 ▸ List.mem_cons_self _ _)
      · rcases ih h0 with h1 | ⟨p', hp', he⟩
        · exact Or.inl (List.mem_cons_of_mem _ h1)
        · exact Or.inr ⟨p', List.mem_cons_of_mem _ hp', he⟩

/-- All stored captions are fixed points of the trim-and-default rule. -/
def NormalNames (ps : List Photo) : Prop := ∀ p ∈ ps, defaultName p.name = p.name

theorem applyNew_normal {old : Photo} (b : Photo) (h : defaultName old.name = old.name) :
    defaultName (applyNew old b).name = (applyNew old b).name := by
  rw [applyNew_name]
  by_cases hb : pyStrip b.name ≠ ""
  · rw [if_pos hb]
    exact defaultName_of_strip _ (by simpa using hb)
  · rw [if_neg hb]
    exact h

theorem stepNewP_cases (ps : List Photo) (b : Photo) :
    (b.data = none ∧ stepNewP ps b = ps)
    ∨ (∃ bs, b.data = some bs ∧ hasData ps bs = true
        ∧ stepNewP ps b = updData ps bs (fun old => applyNew old b))
    ∨ (∃ bs, b.data = some bs ∧ hasData ps bs = false
        ∧ stepNewP ps b = ps ++ [{ b with name := defaultName b.name }]) := by
  cases hd : b.data with
  | none =>
    left
    exact ⟨rfl, by simp [stepNewP, hd]⟩
  | some bs =>
    cases hps : hasData ps bs with
    | true =>
      right; left
      exact ⟨bs, rfl, hps, by simp [stepNewP, hd, hps]⟩
    | false =>
      right; right
      exact ⟨bs, rfl, hps, by simp [stepNewP, hd, hps]⟩

theorem stepNewP_NormalNames {ps : List Photo} (b : Photo) (h : NormalNames ps) :
    NormalNames (stepNewP ps b) := by
  rcases stepNewP_cases ps b with ⟨hd0, he⟩ | ⟨bs, hd, hps, he⟩ | ⟨bs, hd, hps, he⟩ <;> rw [he]
  · exact h
  · intro q hq
    rcases updData_mem hq with hin | ⟨p, hp, hqe⟩
    · exact h q hin
    · rw [hqe]
      exact applyNew_normal b (h p hp)
  · intro q hq
    rcases List.mem_append.1 hq with hin | hin
    · exact h q hin
    · rw [List.mem_singleton.1 hin]
      exact defaultName_idem b.name

theorem foldNewP_NormalNames (B : List Photo) : ∀ ps, NormalNames ps →
    NormalNames (foldNewP ps B) := by
  induction B with
  | nil => intro ps h; exact h
  | cons b rest ih =>
    intro ps h
    exact ih _ (stepNewP_NormalNames b h)

theorem stepNewP_DistinctData {ps : List Photo} (b : Photo) (h : DistinctData ps) :
    DistinctData (stepNewP ps b) := by
  rcases stepNewP_cases ps b with ⟨hd0, he⟩ | ⟨bs, hd, hps, he⟩ | ⟨bs, hd, hps, he⟩ <;> rw [he]
  · exact h
  · exact DistinctData_updData h (fun q hq => by rw [applyNew_data]; exact hq)
  · apply DistinctData_append_one h
    intro bs' h'
    have : b.data = some bs' := h'
    rw [hd] at this
    rw [← Option.some.inj this]
    exact hps

theorem foldNewP_DistinctData (B : List Photo) : ∀ ps, DistinctData ps →
    DistinctData (foldNewP ps B) := by
  induction B with
  | nil => intro ps h; exact h
  | cons b rest ih =>
    intro ps h
    exact ih _ (stepNewP_DistinctData b h)

theorem hasData_stepNewP_mono {ps : List Photo} {b : Photo} {bs : Bytes}
    (h : hasData ps bs = true) : hasData (stepNewP ps b) bs = true := by
  rcases stepNewP_cases ps b with ⟨hd0, he⟩ | ⟨bs', hd, hps, he⟩ | ⟨bs', hd, hps, he⟩ <;> rw [he]
  · exact h
  · rw [hasData_of_map_data
      (updData_map_data (fun q hq => by rw [applyNew_data]; exact hq))]
    exact h
  · rw [hasData_append, h]
    rfl

theorem hasData_foldNewP_mono (B : List Photo) : ∀ ps bs, hasData ps bs = true →
    hasData (foldNewP ps B) bs = true := by
  induction B with
  | nil => intro ps bs h; exact h
  | cons b rest ih =>
    intro ps bs h
    exact ih _ bs (hasData_stepNewP_mono h)

theorem hasData_foldNewP_of_mem (B : List Photo) : ∀ ps, ∀ b ∈ B, ∀ bs,
    b.data = some bs → hasData (foldNewP ps B) bs = true := by
  induction B with
  | nil => intro ps b hb; simp at hb
  | cons b' rest ih =>
    intro ps b hb bs hbd
    rcases List.mem_cons.1 hb with hbe | hbr
    · subst hbe
      show hasData (foldNewP (stepNewP ps b) rest) bs = true
      apply hasData_foldNewP_mono
      cases hps : hasData ps bs with
      | true => exact hasData_stepNewP_mono hps
      | false =>
        have he : stepNewP ps b = ps ++ [{ b with name := defaultName b.name }] := by
          simp [stepNewP, hbd, hps]
        rw [he, hasData_append]
        simp [hps, hbd]
    · exact ih _ b hbr bs hbd

theorem newEntriesAux_nil_of_covered (B : List Photo) : ∀ ps,
    (∀ b ∈ B, ∀ bs, b.data = some bs → hasData ps bs = true) →
    newEntriesAux ps B = [] := by
  induction B with
  | nil => intro ps _; rfl
  | cons b rest ih =>
    intro ps h
    cases hd : b.data with
    | none =>
      simp only [newEntriesAux, hd]
      exact ih ps (fun b' hb' bs hbs => h b' (List.mem_cons_of_mem _ hb') bs hbs)
    | some bs =>
      have hcov := h b (List.mem_cons_self _ _) bs hd
      simp only [newEntriesAux, hd, hcov, if_pos]
      exact ih ps (fun b' hb' bs' hbs => h b' (List.mem_cons_of_mem _ hb') bs' hbs)

theorem mapUpd_id_of_absorb {M B : List Photo}
    (h : ∀ q ∈ M, ∀ bs, q.data = some bs → applyAllL q (updatesFor B bs) = q) :
    mapUpd M B = M := by
  induction M with
  | nil => rfl
  | cons q tail ih =>
    simp only [mapUpd, List.map_cons]
    have htail : mapUpd tail B = tail :=
      ih (fun q' hq' bs hbs => h q' (List.mem_cons_of_mem _ hq') bs hbs)
    simp only [mapUpd] at htail
    rw [htail]
    congr 1
    cases hq : q.data with
    | none => rfl
    | some bs => exact h q (List.mem_cons_self _ _) bs hq

theorem foldNewP_absorb {psA : List Photo} (B : List Photo) (hD : DistinctData psA) :
    ∀ q ∈ foldNewP psA B, ∀ bs, q.data = some bs →
      applyAllL q (updatesFor B bs) = q := by
  rw [foldNewP_char B psA hD]
  intro q hq bs hqd
  rcases List.mem_append.1 hq with hm | hm
  · simp only [mapUpd, List.mem_map] at hm
    obtain ⟨p, hp, hpe⟩ := hm
    cases hpd : p.data with
    | none =>
      rw [hpd] at hpe
      rw [← hpe] at hqd
      rw [hpd] at hqd
      cases hqd
    | some bs' =>
      rw [hpd] at hpe
      have hqd' : q.data = some bs' := by
        rw [← hpe, applyAllL_data, hpd]
      rw [hqd'] at hqd
      have hbs : bs' = bs := Option.some.inj hqd
      subst hbs
      rw [← hpe]
      exact applyAllL_idem p (updatesFor B bs')
  · exact (newEntriesAux_absorb B psA q hm bs hqd).1

/-- Re-folding the same new-photo list is a no-op. -/
theorem foldNewP_reapply {psA : List Photo} (B : List Photo) (hD : DistinctData psA) :
    foldNewP (foldNewP psA B) B = foldNewP psA B := by
  have hDM := foldNewP_DistinctData B psA hD
  rw [foldNewP_char B _ hDM]
  rw [newEntriesAux_nil_of_covered B _
    (fun b hb bs hbs => hasData_foldNewP_of_mem B psA b hb bs hbs)]
  rw [List.append_nil]
  exact mapUpd_id_of_absorb (foldNewP_absorb B hD)

/-! ### Invariants of the existing-photo fold and the refold property -/

theorem update_name (old c : Photo) : (Photo.update old c).name = c.name := rfl

theorem stepExP_cases (ps : List Photo) (p : Photo) :
    (p.data = none ∧ stepExP ps p = ps ++ [{ p with name := defaultName p.name }])
    ∨ (∃ bs, p.data = some bs ∧ hasData ps bs = true
        ∧ stepExP ps p = updData ps bs (fun old => old.update { p with name := defaultName p.name }))
    ∨ (∃ bs, p.data = some bs ∧ hasData ps bs = false
        ∧ stepExP ps p = ps ++ [{ p with name := defaultName p.name }]) := by
  cases hd : p.data with
  | none =>
    left
    exact ⟨rfl, by simp [stepExP, hd]⟩
  | some bs =>
    cases hps : hasData ps bs with
    | true =>
      right; left
      exact ⟨bs, rfl, hps, by simp [stepExP, hd, hps]⟩
    | false =>
      right; right
      exact ⟨bs, rfl, hps, by simp [stepExP, hd, hps]⟩

theorem stepExP_NormalNames {ps : List Photo} (p : Photo) (h : NormalNames ps) :
    NormalNames (stepExP ps p) := by
  rcases stepExP_cases ps p with ⟨hd, he⟩ | ⟨bs, hd, hps, he⟩ | ⟨bs, hd, hps, he⟩ <;>
    rw [he] <;> intro q hq
  · rcases List.mem_append.1 hq with hin | hin
    · exact h q hin
    · rw [List.mem_singleton.1 hin]
      exact defaultName_idem p.name
  · rcases updData_mem hq with hin | ⟨p', hp', hqe⟩
    · exact h q hin
    · rw [hqe, update_name]
      exact defaultName_idem p.name
  · rcases List.mem_append.1 hq with hin | hin
    · exact h q hin
    · rw [List.mem_singleton.1 hin]
      exact defaultName_idem p.name

theorem stepExP_DistinctData {ps : List Photo} (p : Photo) (h : DistinctData ps) :
    DistinctData (stepExP ps p) := by
  rcases stepExP_cases ps p with ⟨hd, he⟩ | ⟨bs, hd, hps, he⟩ | ⟨bs, hd, hps, he⟩ <;> rw [he]
  · apply DistinctData_append_one h
    intro bs' h'
    have : p.data = some bs' := h'
    rw [hd] at this
    cases this
  · apply DistinctData_updData h
    intro q hq
    rw [update_data]
    have : Photo.data { p with name := defaultName p.name } = some bs := hd
    rw [this]
    rfl
  · apply DistinctData_append_one h
    intro bs' h'
    have : p.data = some bs' := h'
    rw [hd] at this
    rw [← Option.some.inj this]
    exact hps

theorem foldExP_NormalNames (A : List Photo) : ∀ ps, NormalNames ps →
    NormalNames (foldExP ps A) := by
  induction A with
  | nil => intro ps h; exact h
  | cons p rest ih =>
    intro ps h
    exact ih _ (stepExP_NormalNames p h)

theorem foldExP_DistinctData (A : List Photo) : ∀ ps, DistinctData ps →
    DistinctData (foldExP ps A) := by
  induction A with
  | nil => intro ps h; exact h
  | cons p rest ih =>
    intro ps h
    exact ih _ (stepExP_DistinctData p h)

/-- Folding an already-normalized, content-distinct photo list as "existing"
over fresh state is a plain append. -/
theorem foldExP_self (M : List Photo) : ∀ acc, NormalNames M → DistinctData M →
    (∀ p ∈ M, ∀ bs, p.data = some bs → hasData acc bs = false) →
    foldExP acc M = acc ++ M := by
  induction M with
  | nil => intro acc _ _ _; simp [foldExP]
  | cons p rest ih =>
    intro acc hN hD hFr
    have hpc : { p with name := defaultName p.name } = p :=
      photoExt (hN p (List.mem_cons_self _ _)) rfl rfl
    unfold DistinctData at hD
    rw [List.map_cons, List.pairwise_cons] at hD
    obtain ⟨hhead, htail⟩ := hD
    have hNr : NormalNames rest := fun q hq => hN q (List.mem_cons_of_mem _ hq)
    show foldExP (stepExP acc p) rest = acc ++ p :: rest
    cases hd : p.data with
    | none =>
      have he : stepExP acc p = acc ++ [{ p with name := defaultName p.name }] := by
        simp [stepExP, hd]
      rw [he, hpc]
      have hFr' : ∀ q ∈ rest, ∀ bs, q.data = some bs → hasData (acc ++ [p]) bs = false := by
        intro q hq bs hqd
        rw [hasData_append, hFr q (List.mem_cons_of_mem _ hq) bs hqd, hd]
        simp
      rw [ih (acc ++ [p]) hNr htail hFr']
      simp
    | some bs =>
      have hacc : hasData acc bs = false := hFr p (List.mem_cons_self _ _) bs hd
      have he : stepExP acc p = acc ++ [{ p with name := defaultName p.name }] := by
        simp [stepExP, hd, hacc]
      rw [he, hpc]
      have hFr' : ∀ q ∈ rest, ∀ bs', q.data = some bs' → hasData (acc ++ [p]) bs' = false := by
        intro q hq bs' hqd
        rw [hasData_append, hFr q (List.mem_cons_of_mem _ hq) bs' hqd, hd]
        have hne : q.data ≠ some bs :=
          hhead q.data (List.mem_map_of_mem _ hq) bs hd
        have : bs' ≠ bs := by
          intro hcon
          exact hne (by rw [hqd, hcon])
        simp only [Bool.false_or]
        rw [decide_eq_false_iff_not]
        intro hcon
        exact this (Option.some.inj hcon).symm
      rw [ih (acc ++ [p]) hNr htail hFr']
      simp

/-- Photo-level idempotence of the merge. -/
theorem mergeP_idem (A B : List Photo) :
    mergeP (mergeP A B) B = mergeP A B ∧ mergeP (mergeP A B) [] = mergeP A B := by
  have hDA : DistinctData (foldExP [] A) := foldExP_DistinctData A [] DistinctData_nil
  have hNA : NormalNames (foldExP [] A) := foldExP_NormalNames A [] (by intro p hp; cases hp)
  have hNM : NormalNames (mergeP A B) := foldNewP_NormalNames B _ hNA
  have hDM : DistinctData (mergeP A B) := foldNewP_DistinctData B _ hDA
  have hRefold : foldExP [] (mergeP A B) = mergeP A B := by
    have := foldExP_self (mergeP A B) [] hNM hDM (fun p _ bs _ => rfl)
    simpa using this
  constructor
  · show foldNewP (foldExP [] (mergeP A B)) B = mergeP A B
    rw [hRefold]
    exact foldNewP_reapply B hDA
  · show foldNewP (foldExP [] (mergeP A B)) [] = mergeP A B
    rw [hRefold]
    rfl

end Merge

/-! ## Claim C5: idempotence of the photo merge -/

/-- **C5**: `merge_photo_records` is idempotent: merging the same new list a
second time gives the same result as merging it once, and merging an empty
new list into a merge result leaves it unchanged:
`merge(merge(A,B), B) = merge(A,B)` and `merge(merge(A,B), []) = merge(A,B)`. -/
theorem C5_merge_photo_records_idempotent :
    ∀ A B : List Merge.Photo,
      Merge.merge_photo_records (Merge.merge_photo_records A B) B
          = Merge.merge_photo_records A B
      ∧ Merge.merge_photo_records (Merge.merge_photo_records A B) []
          = Merge.merge_photo_records A B := by
  intro A B
  rw [Merge.merge_photo_records_eq_mergeP A B,
    Merge.merge_photo_records_eq_mergeP (Merge.mergeP A B) B,
    Merge.merge_photo_records_eq_mergeP (Merge.mergeP A B) []]
  exact Merge.mergeP_idem A B

namespace Merge

/-! ### Data-sequence characterization of the merge (order and dedup) -/

/-- First entry whose payload is `some bs`. -/
def photoAt (ps : List Photo) (bs : Bytes) : Option Photo :=
  ps.find? (fun p => decide (p.data = some bs))

def dataSeen (seen : List (Option Bytes)) (bs : Bytes) : Bool :=
  seen.any (fun d => decide (d = some bs))

/-- Existing-fold projection on payload sequences: keep `none` entries,
keep the first occurrence of each `some` payload, drop later duplicates. -/
def dedupExData : List (Option Bytes) → List (Option Bytes) → List (Option Bytes)
  | _, [] => []
  | seen, none :: rest => none :: dedupExData seen rest
  | seen, some bs :: rest =>
      if dataSeen seen bs then dedupExData seen rest
      else some bs :: dedupExData (seen ++ [some bs]) rest

/-- New-fold projection on payload sequences: drop `none` entries, keep the
first fresh occurrence of each `some` payload. -/
def freshNewData : List (Option Bytes) → List (Option Bytes) → List (Option Bytes)
  | _, [] => []
  | seen, none :: rest => freshNewData seen rest
  | seen, some bs :: rest =>
      if dataSeen seen bs then freshNewData seen rest
      else some bs :: freshNewData (seen ++ [some bs]) rest

theorem hasData_eq_dataSeen (ps : List Photo) (bs : Bytes) :
    hasData ps bs = dataSeen (ps.map Photo.data) bs := by
  induction ps with
  | nil => rfl
  | cons p tail ih =>
    simp only [hasData, dataSeen, List.map_cons, List.any_cons] at *
    rw [ih]

theorem dataSeen_append (s : List (Option Bytes)) (d : Option Bytes) (bs : Bytes) :
    dataSeen (s ++ [d]) bs = (dataSeen s bs || decide (d = some bs)) := by
  simp [dataSeen]

theorem dedupExData_congr (l : List (Option Bytes)) :
    ∀ s₁ s₂, (∀ bs, dataSeen s₁ bs = dataSeen s₂ bs) →
      dedupExData s₁ l = dedupExData s₂ l := by
  induction l with
  | nil => intro s₁ s₂ _; rfl
  | cons d rest ih =>
    intro s₁ s₂ h
    cases d with
    | none =>
      simp only [dedupExData]
      rw [ih s₁ s₂ h]
    | some bs =>
      simp only [dedupExData]
      rw [h bs]
      cases hs : dataSeen s₂ bs with
      | true =>
        simp only [if_pos rfl]
        exact ih s₁ s₂ h
      | false =>
        simp only [Bool.false_eq_true, if_false]
        congr 1
        apply ih
        intro bs'
        rw [dataSeen_append, dataSeen_append, h bs']

theorem freshNewData_congr (l : List (Option Bytes)) :
    ∀ s₁ s₂, (∀ bs, dataSeen s₁ bs = dataSeen s₂ bs) →
      freshNewData s₁ l = freshNewData s₂ l := by
  induction l with
  | nil => intro s₁ s₂ _; rfl
  | cons d rest ih =>
    intro s₁ s₂ h
    cases d with
    | none =>
      simp only [freshNewData]
      exact ih s₁ s₂ h
    | some bs =>
      simp only [freshNewData]
      rw [h bs]
      cases hs : dataSeen s₂ bs with
      | true =>
        simp only [if_pos rfl]
        exact ih s₁ s₂ h
      | false =>
        simp only [Bool.false_eq_true, if_false]
        congr 1
        apply ih
        intro bs'
        rw [dataSeen_append, dataSeen_append, h bs']

theorem foldExP_map_data (A : List Photo) : ∀ acc,
    (foldExP acc A).map Photo.data
      = acc.map Photo.data ++ dedupExData (acc.map Photo.data) (A.map Photo.data) := by
  induction A with
  | nil => intro acc; simp [foldExP, dedupExData]
  | cons p rest ih =>
    intro acc
    show (foldExP (stepExP acc p) rest).map Photo.data = _
    rcases stepExP_cases acc p with ⟨hd, he⟩ | ⟨bs, hd, hps, he⟩ | ⟨bs, hd, hps, he⟩ <;>
      rw [he, ih]
    · have hmap : (acc ++ [{ p with name := defaultName p.name }]).map Photo.data
          = acc.map Photo.data ++ [none] := by
        simp [hd]
      rw [hmap, List.map_cons, hd]
      show (acc.map Photo.data ++ [none])
            ++ dedupExData (acc.map Photo.data ++ [none]) (rest.map Photo.data)
          = acc.map Photo.data ++ none :: dedupExData (acc.map Photo.data) (rest.map Photo.data)
      rw [dedupExData_congr (rest.map Photo.data) (acc.map Photo.data ++ [none])
        (acc.map Photo.data) (fun bs' => by rw [dataSeen_append]; simp)]
      simp [List.append_assoc]
    · have hf : ∀ q : Photo, q.data = some bs →
          (q.update { p with name := defaultName p.name }).data = some bs := by
        intro q hq
        rw [update_data]
        have hcd : Photo.data { p with name := defaultName p.name } = some bs := hd
        rw [hcd]
        rfl
      rw [updData_map_data hf, List.map_cons, hd]
      have hseen : dataSeen (acc.map Photo.data) bs = true := by
        rw [← hasData_eq_dataSeen]
        exact hps
      show acc.map Photo.data ++ dedupExData (acc.map Photo.data) (rest.map Photo.data)
          = acc.map Photo.data
              ++ dedupExData (acc.map Photo.data) (some bs :: rest.map Photo.data)
      simp only [dedupExData, hseen, if_pos]
    · have hmap : (acc ++ [{ p with name := defaultName p.name }]).map Photo.data
          = acc.map Photo.data ++ [some bs] := by
        simp [hd]
      rw [hmap, List.map_cons, hd]
      have hseen : dataSeen (acc.map Photo.data) bs = false := by
        rw [← hasData_eq_dataSeen]
        exact hps
      show (acc.map Photo.data ++ [some bs])
            ++ dedupExData (acc.map Photo.data ++ [some bs]) (rest.map Photo.data)
          = acc.map Photo.data
              ++ dedupExData (acc.map Photo.data) (some bs :: rest.map Photo.data)
      simp only [dedupExData, hseen, Bool.false_eq_true, if_false]
      simp [List.append_assoc]

theorem foldNewP_map_data (B : List Photo) : ∀ ps,
    (foldNewP ps B).map Photo.data
      = ps.map Photo.data ++ freshNewData (ps.map Photo.data) (B.map Photo.data) := by
  induction B with
  | nil => intro ps; simp [foldNewP, freshNewData]
  | cons b rest ih =>
    intro ps
    show (foldNewP (stepNewP ps b) rest).map Photo.data = _
    rcases stepNewP_cases ps b with ⟨hd, he⟩ | ⟨bs, hd, hps, he⟩ | ⟨bs, hd, hps, he⟩ <;>
      rw [he, ih]
    · rw [List.map_cons, hd]
      show ps.map Photo.data ++ freshNewData (ps.map Photo.data) (rest.map Photo.data)
          = ps.map Photo.data
              ++ freshNewData (ps.map Photo.data) (none :: rest.map Photo.data)
      simp only [freshNewData]
    · rw [updData_map_data (fun q hq => by rw [applyNew_data]; exact hq), List.map_cons, hd]
      have hseen : dataSeen (ps.map Photo.data) bs = true := by
        rw [← hasData_eq_dataSeen]
        exact hps
      show ps.map Photo.data ++ freshNewData (ps.map Photo.data) (rest.map Photo.data)
          = ps.map Photo.data
              ++ freshNewData (ps.map Photo.data) (some bs :: rest.map Photo.data)
      simp only [freshNewData, hseen, if_pos]
    · have hmap : (ps ++ [{ b with name := defaultName b.name }]).map Photo.data
          = ps.map Photo.data ++ [some bs] := by
        simp [hd]
      rw [hmap, List.map_cons, hd]
      have hseen : dataSeen (ps.map Photo.data) bs = false := by
        rw [← hasData_eq_dataSeen]
        exact hps
      show (ps.map Photo.data ++ [some bs])
            ++ freshNewData (ps.map Photo.data ++ [some bs]) (rest.map Photo.data)
          = ps.map Photo.data
              ++ freshNewData (ps.map Photo.data) (some bs :: rest.map Photo.data)
      simp only [freshNewData, hseen, Bool.false_eq_true, if_false]
      simp [List.append_assoc]

end Merge

namespace Merge

/-! ### Lookup lemmas for the stored photo at a given payload -/

theorem photoAt_cons (x : Photo) (l : List Photo) (bs : Bytes) :
    photoAt (x :: l) bs = if x.data = some bs then some x else photoAt l bs := by
  by_cases h : x.data = some bs <;> simp [photoAt, List.find?_cons, h]

theorem photoAt_append (l₁ l₂ : List Photo) (bs : Bytes) :
    photoAt (l₁ ++ l₂) bs = (photoAt l₁ bs).or (photoAt l₂ bs) :=
  List.find?_append

theorem photoAt_eq_none (ps : List Photo) (bs : Bytes) :
    photoAt ps bs = none ↔ hasData ps bs = false := by
  rw [photoAt, List.find?_eq_none, hasData_eq_false_iff]
  constructor
  · intro h p hp hpd
    exact absurd (by simp [hpd]) (h p hp)
  · intro h p hp hcon
    exact h p hp (by simpa using hcon)

theorem photoAt_of_hasData {ps : List Photo} {bs : Bytes} (h : hasData ps bs = true) :
    ∃ q, photoAt ps bs = some q := by
  cases hq : photoAt ps bs with
  | none =>
    rw [photoAt_eq_none] at hq
    rw [hq] at h
    cases h
  | some q => exact ⟨q, rfl⟩

theorem photoAt_updData_target {ps : List Photo} {bs : Bytes} {f : Photo → Photo}
    (hf : ∀ q, q.data = some bs → (f q).data = some bs) :
    photoAt (updData ps bs f) bs = (photoAt ps bs).map f := by
  induction ps with
  | nil => rfl
  | cons p tail ih =>
    simp only [updData]
    by_cases hp : p.data = some bs
    · rw [if_pos hp, photoAt_cons, photoAt_cons, if_pos (hf p hp), if_pos hp]
      rfl
    · rw [if_neg hp, photoAt_cons, photoAt_cons, if_neg hp, if_neg hp, ih]

theorem photoAt_updData_other {ps : List Photo} {bs₀ bs : Bytes} {f : Photo → Photo}
    (hne : bs₀ ≠ bs) (hf : ∀ q, q.data = some bs₀ → (f q).data = some bs₀) :
    photoAt (updData ps bs₀ f) bs = photoAt ps bs := by
  induction ps with
  | nil => rfl
  | cons p tail ih =>
    simp only [updData]
    by_cases hp : p.data = some bs₀
    · have h1 : (f p).data ≠ some bs := by
        rw [hf p hp]
        intro hcon
        exact hne (Option.some.inj hcon)
      have h2 : p.data ≠ some bs := by
        rw [hp]
        intro hcon
        exact hne (Option.some.inj hcon)
      rw [if_pos hp, photoAt_cons, photoAt_cons, if_neg h1, if_neg h2]
    · rw [if_neg hp, photoAt_cons, photoAt_cons, ih]

theorem lastOfCons {α : Type} (a : α) (l : List α) :
    (a :: l).getLast? = (l.getLast?).or (some a) := by
  induction l generalizing a with
  | nil => rfl
  | cons b m ih =>
    rw [List.getLast?_cons_cons, ih b]
    cases hm : m.getLast? with
    | none => rfl
    | some x => rfl

/-- After folding existing photos, the stored photo at payload `bs` carries
the defaulted name of the *last* existing supplier of `bs` (later duplicates
overwrite earlier metadata), or is inherited from the initial state. -/
theorem photoAt_name_foldExP (A : List Photo) : ∀ acc bs,
    (photoAt (foldExP acc A) bs).map Photo.name
      = (match (A.filter (fun q => decide (q.data = some bs))).getLast? with
          | some pa => some (defaultName pa.name)
          | none => (photoAt acc bs).map Photo.name) := by
  induction A with
  | nil =>
    intro acc bs
    simp [foldExP]
  | cons p rest ih =>
    intro acc bs
    show (photoAt (foldExP (stepExP acc p) rest) bs).map Photo.name = _
    rw [ih]
    by_cases hpbs : p.data = some bs
    · have hfil : (p :: rest).filter (fun q => decide (q.data = some bs))
          = p :: rest.filter (fun q => decide (q.data = some bs)) := by
        simp [List.filter_cons, hpbs]
      rw [hfil, lastOfCons]
      have hstep : (photoAt (stepExP acc p) bs).map Photo.name
          = some (defaultName p.name) := by
        rcases stepExP_cases acc p with ⟨hd, he⟩ | ⟨bs₀, hd, hps, he⟩ | ⟨bs₀, hd, hps, he⟩
        · rw [hd] at hpbs
          exact Option.noConfusion hpbs
        · have hb0 : bs₀ = bs := by
            rw [hd] at hpbs
            exact Option.some.inj hpbs
          subst hb0
          rw [he]
          have hf : ∀ q : Photo, q.data = some bs₀ →
              (q.update { p with name := defaultName p.name }).data = some bs₀ := by
            intro q hq
            rw [update_data]
            have hcd : Photo.data { p with name := defaultName p.name } = some bs₀ := hd
            rw [hcd]
            rfl
          rw [photoAt_updData_target hf]
          obtain ⟨q, hq⟩ := photoAt_of_hasData hps
          rw [hq]
          rfl
        · have hb0 : bs₀ = bs := by
            rw [hd] at hpbs
            exact Option.some.inj hpbs
          subst hb0
          rw [he, photoAt_append, (photoAt_eq_none acc bs₀).2 hps, photoAt_cons]
          have hcd : Photo.data { p with name := defaultName p.name } = some bs₀ := hd
          rw [if_pos hcd]
          rfl
      cases hlast : (rest.filter (fun q => decide (q.data = some bs))).getLast? with
      | some pa => rfl
      | none => exact hstep
    · have hfil : (p :: rest).filter (fun q => decide (q.data = some bs))
          = rest.filter (fun q => decide (q.data = some bs)) := by
        simp [List.filter_cons, hpbs]
      rw [hfil]
      have hstep : photoAt (stepExP acc p) bs = photoAt acc bs := by
        rcases stepExP_cases acc p with ⟨hd, he⟩ | ⟨bs₀, hd, hps, he⟩ | ⟨bs₀, hd, hps, he⟩
        · rw [he, photoAt_append, photoAt_cons]
          have hcd : Photo.data { p with name := defaultName p.name } = none := hd
          rw [if_neg (by rw [hcd]; exact fun hcon => Option.noConfusion hcon)]
          show (photoAt acc bs).or (photoAt [] bs) = photoAt acc bs
          cases photoAt acc bs <;> rfl
        · have hb0 : bs₀ ≠ bs := by
            intro hcon
            subst hcon
            exact hpbs hd
          rw [he]
          refine photoAt_updData_other hb0 ?_
          intro q hq
          rw [update_data]
          have hcd : Photo.data { p with name := defaultName p.name } = some bs₀ := hd
          rw [hcd]
          rfl
        · have hb0 : bs₀ ≠ bs := by
            intro hcon
            subst hcon
            exact hpbs hd
          rw [he, photoAt_append, photoAt_cons]
          have hcd : Photo.data { p with name := defaultName p.name } = some bs₀ := hd
          rw [if_neg (by rw [hcd]; intro hcon; exact hb0 (Option.some.inj hcon))]
          show (photoAt acc bs).or (photoAt [] bs) = photoAt acc bs
          cases photoAt acc bs <;> rfl
      cases hlast : (rest.filter (fun q => decide (q.data = some bs))).getLast? with
      | some pa => rfl
      | none => rw [hstep]

theorem photoAt_mapUpd (ps B : List Photo) (bs : Bytes) :
    photoAt (mapUpd ps B) bs
      = (photoAt ps bs).map (fun p => applyAllL p (updatesFor B bs)) := by
  induction ps with
  | nil => rfl
  | cons p tail ih =>
    simp only [mapUpd, List.map_cons]
    cases hp : p.data with
    | none =>
      rw [photoAt_cons, photoAt_cons, if_neg (by rw [hp]; exact fun h => Option.noConfusion h),
        if_neg (by rw [hp]; exact fun h => Option.noConfusion h)]
      exact ih
    | some bs' =>
      by_cases hbb : bs' = bs
      · subst hbb
        have hgd : (applyAllL p (updatesFor B bs')).data = some bs' := by
          rw [applyAllL_data]
          exact hp
        rw [photoAt_cons, photoAt_cons, if_pos hgd, if_pos hp]
        rfl
      · have hgd : (applyAllL p (updatesFor B bs')).data ≠ some bs := by
          rw [applyAllL_data, hp]
          intro hcon
          exact hbb (Option.some.inj hcon)
        have hpd : p.data ≠ some bs := by
          rw [hp]
          intro hcon
          exact hbb (Option.some.inj hcon)
        rw [photoAt_cons, photoAt_cons, if_neg hgd, if_neg hpd]
        exact ih

theorem photoAt_name_newEntriesAux (B : List Photo) : ∀ ps bs,
    hasData ps bs = false →
    (photoAt (newEntriesAux ps B) bs).map Photo.name
      = (match updatesFor B bs with
          | [] => none
          | b₀ :: SB => some ((lastNonBlankName SB).getD (defaultName b₀.name))) := by
  induction B with
  | nil =>
    intro ps bs _
    simp [newEntriesAux, updatesFor, photoAt]
  | cons b rest ih =>
    intro ps bs hps
    cases hb : b.data with
    | none =>
      rw [show newEntriesAux ps (b :: rest) = newEntriesAux ps rest by
          simp [newEntriesAux, hb],
        updatesFor_cons_other (by rw [hb]; exact fun h => Option.noConfusion h) rest]
      exact ih ps bs hps
    | some bs₀ =>
      cases hps₀ : hasData ps bs₀ with
      | true =>
        have hbb : bs ≠ bs₀ := by
          intro hcon
          rw [hcon] at hps
          rw [hps] at hps₀
          cases hps₀
        rw [show newEntriesAux ps (b :: rest) = newEntriesAux ps rest by
            simp [newEntriesAux, hb, hps₀],
          updatesFor_cons_other
            (by rw [hb]; intro hcon; exact hbb (Option.some.inj hcon).symm) rest]
        exact ih ps bs hps
      | false =>
        rw [show newEntriesAux ps (b :: rest)
              = applyAllL { b with name := defaultName b.name } (updatesFor rest bs₀)
                :: newEntriesAux (ps ++ [{ b with name := defaultName b.name }]) rest by
            simp [newEntriesAux, hb, hps₀]]
        by_cases hbb : bs = bs₀
        · subst hbb
          have he : (applyAllL { b with name := defaultName b.name }
              (updatesFor rest bs)).data = some bs := by
            rw [applyAllL_data]
            exact hb
          rw [photoAt_cons, if_pos he, updatesFor_cons_self hb rest]
          show some (applyAllL { b with name := defaultName b.name }
              (updatesFor rest bs)).name = _
          rw [applyAllL_name]
        · have hbne : b.data ≠ some bs := by
            rw [hb]
            intro hcon
            exact hbb (Option.some.inj hcon).symm
          have he : (applyAllL { b with name := defaultName b.name }
              (updatesFor rest bs₀)).data ≠ some bs := by
            rw [applyAllL_data]
            exact hbne
          rw [photoAt_cons, if_neg he, updatesFor_cons_other hbne rest]
          apply ih
          rw [hasData_append, hps]
          simp only [Bool.false_or]
          rw [decide_eq_false_iff_not]
          exact hbne

theorem DistinctData_countP {ps : List Photo} {bs : Bytes} (hD : DistinctData ps) :
    ps.countP (fun p => decide (p.data = some bs)) ≤ 1 := by
  induction ps with
  | nil => simp
  | cons p tail ih =>
    unfold DistinctData at hD
    rw [List.map_cons, List.pairwise_cons] at hD
    obtain ⟨hhead, htail⟩ := hD
    rw [List.countP_cons]
    by_cases hp : p.data = some bs
    · have hzero : tail.countP (fun q => decide (q.data = some bs)) = 0 := by
        rw [List.countP_eq_zero]
        intro q hq
        simp only [decide_eq_true_eq]
        exact hhead q.data (List.mem_map_of_mem _ hq) bs hp
      rw [hzero]
      simp [hp]
    · have := ih htail
      simp [hp]
      omega

/-- The name the merge assigns to the unique slot holding payload `bs`:
the last existing supplier's defaulted name, updated by the last non-blank
new supplier; if only new photos supply `bs`, the first one creates the slot
with its defaulted name and later non-blank names overwrite it. -/
def mergedNameFor (A B : List Photo) (bs : Bytes) : Option String :=
  match (A.filter (fun q => decide (q.data = some bs))).getLast? with
  | some pa => some ((lastNonBlankName (updatesFor B bs)).getD (defaultName pa.name))
  | none =>
      match updatesFor B bs with
      | [] => none
      | b₀ :: SB => some ((lastNonBlankName SB).getD (defaultName b₀.name))

theorem mergeP_photoAt_name (A B : List Photo) (bs : Bytes) :
    (photoAt (mergeP A B) bs).map Photo.name = mergedNameFor A B bs := by
  have hDA : DistinctData (foldExP [] A) := foldExP_DistinctData A [] DistinctData_nil
  show (photoAt (foldNewP (foldExP [] A) B) bs).map Photo.name = _
  rw [foldNewP_char B _ hDA, photoAt_append, photoAt_mapUpd]
  have hex := photoAt_name_foldExP A [] bs
  unfold mergedNameFor
  cases hlast : (A.filter (fun q => decide (q.data = some bs))).getLast? with
  | some pa =>
    rw [hlast] at hex
    cases hq : photoAt (foldExP [] A) bs with
    | none =>
      rw [hq] at hex
      cases hex
    | some q =>
      rw [hq] at hex
      have hqn : q.name = defaultName pa.name := by
        injection hex
      show ((some (applyAllL q (updatesFor B bs))).or _).map Photo.name = _
      show some (applyAllL q (updatesFor B bs)).name
          = some ((lastNonBlankName (updatesFor B bs)).getD (defaultName pa.name))
      rw [applyAllL_name, hqn]
  | none =>
    rw [hlast] at hex
    have hq : photoAt (foldExP [] A) bs = none := by
      cases hq' : photoAt (foldExP [] A) bs with
      | none => rfl
      | some q =>
        rw [hq'] at hex
        cases hex
    rw [hq]
    show ((Option.none).or (photoAt (newEntriesAux (foldExP [] A) B) bs)).map Photo.name = _
    rw [Option.none_or]
    exact photoAt_name_newEntriesAux B (foldExP [] A) bs ((photoAt_eq_none _ bs).1 hq)

theorem mergeP_map_data (A B : List Photo) :
    (mergeP A B).map Photo.data
      = dedupExData [] (A.map Photo.data)
        ++ freshNewData (dedupExData [] (A.map Photo.data)) (B.map Photo.data) := by
  show (foldNewP (foldExP [] A) B).map Photo.data = _
  rw [foldNewP_map_data, foldExP_map_data]
  simp

theorem mergeP_DistinctData (A B : List Photo) : DistinctData (mergeP A B) :=
  foldNewP_DistinctData B _ (foldExP_DistinctData A [] DistinctData_nil)

end Merge

/-! ## Claim C4: content-hash deduplication of the photo merge -/

/-- **C4, counterexample**: with two byte-identical existing photos where the
*later* one has a blank name, the merged entry's name is the "Site photo"
placeholder, not the most recently supplied non-blank name "Alpha". -/
theorem C4_counterexample :
    Merge.merge_photo_records
        [⟨"Alpha", some [1], none⟩, ⟨"", some [1], none⟩] []
      = [⟨"Site photo", some [1], none⟩]
    ∧ ("Site photo" : String) ≠ "Alpha" := by
  constructor
  · rfl
  · decide

/-- **C4, amended**: byte-identical payloads collapse to one entry placed at
the first occurrence (at most one merged entry per payload; the payload
sequence of the output is the first-occurrence dedup of the inputs'
payload sequences, existing list first); the entry's name is the most
recently supplied effective name, where every existing-list duplicate
supplies its trimmed-or-placeholder name (a later blank existing name resets
to "Site photo") and a new-list duplicate supplies its trimmed name only
when non-blank. -/
theorem C4_amended_merge_dedup :
    ∀ (A B : List Merge.Photo) (bs : Merge.Bytes),
      (Merge.merge_photo_records A B).countP
          (fun p => decide (p.data = some bs)) ≤ 1
      ∧ (Merge.photoAt (Merge.merge_photo_records A B) bs).map Merge.Photo.name
          = Merge.mergedNameFor A B bs
      ∧ (Merge.merge_photo_records A B).map Merge.Photo.data
          = Merge.dedupExData [] (A.map Merge.Photo.data)
            ++ Merge.freshNewData (Merge.dedupExData [] (A.map Merge.Photo.data))
                (B.map Merge.Photo.data) := by
  intro A B bs
  rw [Merge.merge_photo_records_eq_mergeP]
  exact ⟨Merge.DistinctData_countP (Merge.mergeP_DistinctData A B),
    Merge.mergeP_photoAt_name A B bs, Merge.mergeP_map_data A B⟩

namespace Merge

/-! ### Hash-less attachments: existing ones are kept, new ones are skipped -/

theorem mem_updData_of_none {ps : List Photo} {bs : Bytes} {f : Photo → Photo} {q : Photo}
    (hq : q ∈ ps) (hqd : q.data = none) : q ∈ updData ps bs f := by
  induction ps with
  | nil => cases hq
  | cons p tail ih =>
    simp only [updData]
    by_cases hp : p.data = some bs
    · rw [if_pos hp]
      rcases List.mem_cons.1 hq with he | hin
      · subst he
        rw [hqd] at hp
        cases hp
      · exact List.mem_cons_of_mem _ hin
    · rw [if_neg hp]
      rcases List.mem_cons.1 hq with he | hin
      · exact he ▸ List.mem_cons_self _ _
      · exact List.mem_cons_of_mem _ (ih hin)

theorem mem_stepNewP_of_none {ps : List Photo} {b q : Photo}
    (hq : q ∈ ps) (hqd : q.data = none) : q ∈ stepNewP ps b := by
  rcases stepNewP_cases ps b with ⟨_, he⟩ | ⟨bs, _, _, he⟩ | ⟨bs, _, _, he⟩ <;> rw [he]
  · exact hq
  · exact mem_updData_of_none hq hqd
  · exact List.mem_append_left _ hq

theorem mem_foldNewP_of_none (B : List Photo) : ∀ ps q, q ∈ ps → q.data = none →
    q ∈ foldNewP ps B := by
  induction B with
  | nil => intro ps q hq _; exact hq
  | cons b rest ih =>
    intro ps q hq hqd
    exact ih _ q (mem_stepNewP_of_none hq hqd) hqd

theorem mem_stepExP_of_none {ps : List Photo} {p q : Photo}
    (hq : q ∈ ps) (hqd : q.data = none) : q ∈ stepExP ps p := by
  rcases stepExP_cases ps p with ⟨_, he⟩ | ⟨bs, _, _, he⟩ | ⟨bs, _, _, he⟩ <;> rw [he]
  · exact List.mem_append_left _ hq
  · exact mem_updData_of_none hq hqd
  · exact List.mem_append_left _ hq

theorem mem_foldExP_of_none (A : List Photo) : ∀ ps q, q ∈ ps → q.data = none →
    q ∈ foldExP ps A := by
  induction A with
  | nil => intro ps q hq _; exact hq
  | cons p rest ih =>
    intro ps q hq hqd
    exact ih _ q (mem_stepExP_of_none hq hqd) hqd

/-- A hash-less existing photo is stored (with defaulted name) by the
existing-photo fold and never removed afterwards. -/
theorem kept_existing (A : List Photo) : ∀ acc, ∀ p ∈ A, p.data = none →
    { p with name := defaultName p.name } ∈ foldExP acc A := by
  induction A with
  | nil => intro acc p hp; cases hp
  | cons p₀ rest ih =>
    intro acc p hp hpd
    rcases List.mem_cons.1 hp with he | hin
    · subst he
      have hc : { p with name := defaultName p.name } ∈ stepExP acc p := by
        have he : stepExP acc p = acc ++ [{ p with name := defaultName p.name }] := by
          simp [stepExP, hpd]
        rw [he]
        exact List.mem_append_right _ (List.mem_singleton.2 rfl)
      exact mem_foldExP_of_none rest _ _ hc hpd
    · exact ih _ p hin hpd

/-- The new-photo fold ignores entries whose payload is not normalizable. -/
theorem foldNewP_filter_isSome (B : List Photo) : ∀ ps,
    foldNewP ps (B.filter (fun b => b.data.isSome)) = foldNewP ps B := by
  induction B with
  | nil => intro ps; rfl
  | cons b rest ih =>
    intro ps
    cases hd : b.data with
    | none =>
      have hstep : stepNewP ps b = ps := by simp [stepNewP, hd]
      rw [List.filter_cons]
      simp only [hd, Option.isSome_none, Bool.false_eq_true, if_false]
      show foldNewP ps (rest.filter (fun b => b.data.isSome))
          = foldNewP (stepNewP ps b) rest
      rw [hstep, ih ps]
    | some bs =>
      rw [List.filter_cons]
      simp only [hd, Option.isSome_some, if_true]
      show foldNewP (stepNewP ps b) (rest.filter (fun b => b.data.isSome))
          = foldNewP (stepNewP ps b) rest
      exact ih _

end Merge

/-! ## Claim C6: attachments that cannot be normalized to bytes -/

/-- **C6, counterexample**: a *new* attachment whose payload cannot be
normalized to bytes is silently dropped by `merge_photo_records`, not kept:
merging it into an empty existing list yields the empty list. -/
theorem C6_counterexample :
    Merge.merge_photo_records [] [⟨"x", none, none⟩] = []
    ∧ (⟨"x", none, none⟩ : Merge.Photo) ∉ Merge.merge_photo_records [] [⟨"x", none, none⟩] := by
  refine ⟨rfl, ?_⟩
  intro hmem
  rw [show Merge.merge_photo_records [] [⟨"x", none, none⟩] = [] from rfl] at hmem
  cases hmem

/-- **C6, amended**: an *existing* attachment whose payload cannot be
normalized to bytes is kept in the merged output (with trimmed/defaulted
name), merged under a synthetic per-position key instead of a content hash;
a *new* attachment whose payload cannot be normalized is skipped, so the
merge result only depends on the normalizable new attachments. -/
theorem C6_amended_hashless_attachments :
    ∀ A B : List Merge.Photo,
      (∀ p ∈ A, p.data = none →
        { p with name := Merge.defaultName p.name } ∈ Merge.merge_photo_records A B)
      ∧ Merge.merge_photo_records A B
          = Merge.merge_photo_records A (B.filter (fun b => b.data.isSome)) := by
  intro A B
  constructor
  · intro p hp hpd
    rw [Merge.merge_photo_records_eq_mergeP]
    exact Merge.mem_foldNewP_of_none B _ _
      (Merge.kept_existing A [] p hp hpd) hpd
  · rw [Merge.merge_photo_records_eq_mergeP, Merge.merge_photo_records_eq_mergeP]
    exact (Merge.foldNewP_filter_isSome B _).symm

/-- Witness for C6 (amended): a hash-less existing photo named `" x "` is
kept with trimmed name `"x"`; filtering the sole hash-less new photo away
does not change the merge. -/
theorem C6_amended_hashless_attachments_witness :
    (⟨"x", none, some "t"⟩ : Merge.Photo)
        ∈ Merge.merge_photo_records [⟨" x ", none, some "t"⟩] []
    ∧ Merge.merge_photo_records [] [⟨"j", none, none⟩]
        = Merge.merge_photo_records []
            ([(⟨"j", none, none⟩ : Merge.Photo)].filter (fun b => b.data.isSome)) := by
  constructor
  · have h := (C6_amended_hashless_attachments [⟨" x ", none, some "t"⟩] []).1
      ⟨" x ", none, some "t"⟩ (List.mem_singleton.2 rfl) rfl
    have he : ({ (⟨" x ", none, some "t"⟩ : Merge.Photo)
        with name := Merge.defaultName " x " }) = (⟨"x", none, some "t"⟩ : Merge.Photo) := by
      decide
    rw [he] at h
    exact h
  · exact (C6_amended_hashless_attachments [] [⟨"j", none, none⟩]).2

/-! ## Base64 (`base64.b64encode` / `base64.b64decode`)

`encode_binary_data`/`decode_binary_data` and the report bundle use Python's
standard base64.  Bytes and ASCII text are both modelled as `List Nat` of
byte values; `b64encode` maps bytes to the ASCII codes of the standard
alphabet with `=` (61) padding, and `pyB64decode` models `b64decode` (with
its default `validate=False`, which first discards non-alphabet,
non-padding characters and requires the remaining length to be a multiple
of four; malformed padding is a failure, surfaced as `none`). -/

namespace B64

/-- ASCII codes of the standard base64 alphabet `A-Z a-z 0-9 + /`. -/
def b64chars : List Nat :=
  [65, 66, 67, 68, 69, 70, 71, 72, 73, 74, 75, 76, 77, 78, 79, 80,
   81, 82, 83, 84, 85, 86, 87, 88, 89, 90,
   97, 98, 99, 100, 101, 102, 103, 104, 105, 106, 107, 108, 109, 110,
   111, 112, 113, 114, 115, 116, 117, 118, 119, 120, 121, 122,
   48, 49, 50, 51, 52, 53, 54, 55, 56, 57, 43, 47]

def encChar (i : Nat) : Nat := b64chars.getD i 0

def decChar (c : Nat) : Option Nat := b64chars.indexOf? c

def b64encode : List Nat → List Nat
  | [] => []
  | [b0] => [encChar (b0 / 4), encChar (b0 % 4 * 16), 61, 61]
  | [b0, b1] =>
      [encChar (b0 / 4), encChar (b0 % 4 * 16 + b1 / 16), encChar (b1 % 16 * 4), 61]
  | b0 :: b1 :: b2 :: rest =>
      encChar (b0 / 4) :: encChar (b0 % 4 * 16 + b1 / 16)
        :: encChar (b1 % 16 * 4 + b2 / 64) :: encChar (b2 % 64) :: b64encode rest

def b64decodeGroups : List Nat → Option (List Nat)
  | [] => some []
  | c0 :: c1 :: c2 :: c3 :: rest =>
      match decChar c0, decChar c1 with
      | some a, some b =>
          if c2 = 61 then
            if c3 = 61 ∧ rest = [] then some [a * 4 + b / 16] else none
          else
            match decChar c2 with
            | some c =>
                if c3 = 61 then
                  if rest = [] then some [a * 4 + b / 16, b % 16 * 16 + c / 4] else none
                else
                  match decChar c3 with
                  | some d =>
                      (b64decodeGroups rest).map
                        (fun tail => (a * 4 + b / 16) :: (b % 16 * 16 + c / 4)
                          :: (c % 4 * 64 + d) :: tail)
                  | none => none
            | none => none
      | _, _ => none
  | _ => none

def pyB64decode (input : List Nat) : Option (List Nat) :=
  let cleaned := input.filter (fun c => (decChar c).isSome || decide (c = 61))
  if cleaned.length % 4 = 0 then b64decodeGroups cleaned else none

theorem decChar_encChar : ∀ i < 64, decChar (encChar i) = some i := by decide

theorem encChar_valid : ∀ i < 64, ((decChar (encChar i)).isSome || decide (encChar i = 61)) = true := by
  decide

theorem encChar_ne_pad : ∀ i < 64, encChar i ≠ 61 := by decide

theorem pad_valid : ((decChar 61).isSome || decide ((61:Nat) = 61)) = true := by decide

theorem b64_spec : ∀ (n : Nat) (l : List Nat), l.length ≤ n → (∀ b ∈ l, b < 256) →
    (∀ c ∈ b64encode l, ((decChar c).isSome || decide (c = 61)) = true)
    ∧ (b64encode l).length % 4 = 0
    ∧ b64decodeGroups (b64encode l) = some l := by
  intro n
  induction n with
  | zero =>
    intro l hl _
    have hnil : l = [] := List.length_eq_zero.1 (Nat.le_zero.1 hl)
    subst hnil
    refine ⟨?_, rfl, rfl⟩
    intro c hc
    simp [b64encode] at hc
  | succ n ih =>
    intro l hl hb
    match l with
    | [] =>
      refine ⟨?_, rfl, rfl⟩
      intro c hc
      simp [b64encode] at hc
    | [b0] =>
      have h0 : b0 < 256 := hb b0 (List.mem_singleton.2 rfl)
      refine ⟨?_, by simp [b64encode], ?_⟩
      · intro c hc
        simp only [b64encode, List.mem_cons, List.not_mem_nil, or_false] at hc
        rcases hc with rfl | rfl | rfl | rfl
        · exact encChar_valid _ (by omega)
        · exact encChar_valid _ (by omega)
        · exact pad_valid
        · exact pad_valid
      · show b64decodeGroups
            [encChar (b0 / 4), encChar (b0 % 4 * 16), 61, 61] = some [b0]
        simp only [b64decodeGroups, decChar_encChar _ (by omega : b0 / 4 < 64),
          decChar_encChar _ (by omega : b0 % 4 * 16 < 64)]
        simp only [if_pos rfl, and_self, if_true]
        have harith : b0 / 4 * 4 + b0 % 4 * 16 / 16 = b0 := by omega
        rw [harith]
    | [b0, b1] =>
      have h0 : b0 < 256 := hb b0 (by simp)
      have h1 : b1 < 256 := hb b1 (by simp)
      refine ⟨?_, by simp [b64encode], ?_⟩
      · intro c hc
        simp only [b64encode, List.mem_cons, List.not_mem_nil, or_false] at hc
        rcases hc with rfl | rfl | rfl | rfl
        · exact encChar_valid _ (by omega)
        · exact encChar_valid _ (by omega)
        · exact encChar_valid _ (by omega)
        · exact pad_valid
      · show b64decodeGroups
            [encChar (b0 / 4), encChar (b0 % 4 * 16 + b1 / 16),
              encChar (b1 % 16 * 4), 61] = some [b0, b1]
        simp only [b64decodeGroups, decChar_encChar _ (by omega : b0 / 4 < 64),
          decChar_encChar _ (by omega : b0 % 4 * 16 + b1 / 16 < 64),
          decChar_encChar _ (by omega : b1 % 16 * 4 < 64)]
        rw [if_neg (encChar_ne_pad _ (by omega : b1 % 16 * 4 < 64))]
        simp only [if_pos rfl, if_true]
        have ha1 : b0 / 4 * 4 + (b0 % 4 * 16 + b1 / 16) / 16 = b0 := by omega
        have ha2 : (b0 % 4 * 16 + b1 / 16) % 16 * 16 + b1 % 16 * 4 / 4 = b1 := by omega
        rw [ha1, ha2]
    | b0 :: b1 :: b2 :: rest =>
      have h0 : b0 < 256 := hb b0 (by simp)
      have h1 : b1 < 256 := hb b1 (by simp)
      have h2 : b2 < 256 := hb b2 (by simp)
      have hrl : rest.length ≤ n := by
        simp only [List.length_cons] at hl
        omega
      have hrb : ∀ b ∈ rest, b < 256 := by
        intro b hbm
        exact hb b (by simp [hbm])
      obtain ⟨ihv, ihlen, ihdec⟩ := ih rest hrl hrb
      refine ⟨?_, ?_, ?_⟩
      · intro c hc
        simp only [b64encode, List.mem_cons] at hc
        rcases hc with rfl | rfl | rfl | rfl | hmem
        · exact encChar_valid _ (by omega)
        · exact encChar_valid _ (by omega)
        · exact encChar_valid _ (by omega)
        · exact encChar_valid _ (by omega)
        · exact ihv c hmem
      · simp only [b64encode, List.length_cons]
        omega
      · show b64decodeGroups
            (encChar (b0 / 4) :: encChar (b0 % 4 * 16 + b1 / 16)
              :: encChar (b1 % 16 * 4 + b2 / 64) :: encChar (b2 % 64)
              :: b64encode rest) = some (b0 :: b1 :: b2 :: rest)
        simp only [b64decodeGroups, decChar_encChar _ (by omega : b0 / 4 < 64),
          decChar_encChar _ (by omega : b0 % 4 * 16 + b1 / 16 < 64),
          decChar_encChar _ (by omega : b1 % 16 * 4 + b2 / 64 < 64),
          decChar_encChar _ (by omega : b2 % 64 < 64)]
        rw [if_neg (encChar_ne_pad _ (by omega : b1 % 16 * 4 + b2 / 64 < 64))]
        rw [if_neg (encChar_ne_pad _ (by omega : b2 % 64 < 64))]
        rw [ihdec]
        have ha1 : b0 / 4 * 4 + (b0 % 4 * 16 + b1 / 16) / 16 = b0 := by omega
        have ha2 : (b0 % 4 * 16 + b1 / 16) % 16 * 16 + (b1 % 16 * 4 + b2 / 64) / 4 = b1 := by
          omega
        have ha3 : (b1 % 16 * 4 + b2 / 64) % 4 * 64 + b2 % 64 = b2 := by omega
        rw [Option.map_some']
        rw [ha1, ha2, ha3]

/-- Round trip of the base64 model: decoding an encoding restores the bytes. -/
theorem b64_roundtrip (l : List Nat) (hb : ∀ b ∈ l, b < 256) :
    pyB64decode (b64encode l) = some l := by
  obtain ⟨hv, hlen, hdec⟩ := b64_spec l.length l le_rfl hb
  show pyB64decode (b64encode l) = some l
  unfold pyB64decode
  rw [List.filter_eq_self.2 hv, if_pos hlen]
  exact hdec

theorem b64encode_ne_nil {l : List Nat} (h : l ≠ []) : b64encode l ≠ [] := by
  match l with
  | [] => exact absurd rfl h
  | [b0] => simp [b64encode]
  | [b0, b1] => simp [b64encode]
  | b0 :: b1 :: b2 :: rest => simp [b64encode]

end B64

/-! ## Persistence round trip (`encode_binary_data` / `decode_binary_data`,
`src/app.py` lines 60-107)

The site record's binary fields hold either raw bytes (live form) or base64
text (stored form); `BinField` models both, with text kept as its ASCII byte
codes (`b64decode` accepts both `str` and `bytes`).  `encode_binary_data`
assumes a truthy `data` is `bytes` — calling `b64encode` on a `str` raises
`TypeError`, modelled as `none`.  Each `decode` of a truthy field is wrapped
in `try/except` degrading that field to `b""` on failure.  Falsy data
(missing, `None`, empty) is left untouched by both directions. -/

namespace Store

inductive BinField where
  | bytesF : List Nat → BinField
  | strF : List Nat → BinField
deriving DecidableEq

def BinField.truthy : BinField → Bool
  | .bytesF bs => !bs.isEmpty
  | .strF s => !s.isEmpty

structure AttachRec where
  name : String
  data : BinField
deriving DecidableEq

structure SiteRec where
  fields : List (String × String)
  diagram : Option AttachRec
  photos : List AttachRec
deriving DecidableEq

def encodeField : BinField → Option BinField
  | .bytesF bs => some (.strF (B64.b64encode bs))
  | .strF _ => none

def encodeAttach (a : AttachRec) : Option AttachRec :=
  if a.data.truthy then
    match encodeField a.data with
    | some d => some { a with data := d }
    | none => none
  else some a

def encodePhotos : List AttachRec → Option (List AttachRec)
  | [] => some []
  | a :: rest =>
      match encodeAttach a, encodePhotos rest with
      | some a', some rest' => some (a' :: rest')
      | _, _ => none

/-- Embedding of `encode_binary_data` (lines 60-80 of `src/app.py`). -/
def encode_binary_data (r : SiteRec) : Option SiteRec :=
  match (match r.diagram with
         | none => some none
         | some a => (encodeAttach a).map some),
        encodePhotos r.photos with
  | some d', some ps' => some { r with diagram := d', photos := ps' }
  | _, _ => none

def rawOf : BinField → List Nat
  | .bytesF bs => bs
  | .strF s => s

def decodeAttach (a : AttachRec) : AttachRec :=
  if a.data.truthy then
    { a with data := .bytesF ((B64.pyB64decode (rawOf a.data)).getD []) }
  else a

/-- Embedding of `decode_binary_data` (lines 83-107 of `src/app.py`). -/
def decode_binary_data (r : SiteRec) : SiteRec :=
  { r with
    diagram := r.diagram.map decodeAttach
    photos := r.photos.map decodeAttach }

/-- Byte payloads only, all byte-valued. -/
def GoodBytes (a : AttachRec) : Prop :=
  ∃ bs, a.data = BinField.bytesF bs ∧ ∀ b ∈ bs, b < 256

theorem roundtrip_attach {a : AttachRec} (h : GoodBytes a) :
    ∃ a', encodeAttach a = some a' ∧ decodeAttach a' = a := by
  obtain ⟨bs, hd, hbnd⟩ := h
  by_cases hnil : bs = []
  · subst hnil
    have ht : a.data.truthy = false := by
      rw [hd]
      rfl
    refine ⟨a, ?_, ?_⟩
    · simp [encodeAttach, ht]
    · simp [decodeAttach, ht]
  · have ht : a.data.truthy = true := by
      rw [hd]
      simp [BinField.truthy, hnil]
    refine ⟨{ a with data := .strF (B64.b64encode bs) }, ?_, ?_⟩
    · have htb : (BinField.bytesF bs).truthy = true := by
        simp [BinField.truthy, hnil]
      simp [encodeAttach, hd, htb, encodeField]
    · have ht' : BinField.truthy (.strF (B64.b64encode bs)) = true := by
        simp [BinField.truthy, List.isEmpty_iff]
        exact B64.b64encode_ne_nil hnil
      simp only [decodeAttach, ht', if_pos]
      have hdec : B64.pyB64decode (rawOf (.strF (B64.b64encode bs))) = some bs :=
        B64.b64_roundtrip bs hbnd
      rw [hdec]
      cases a with
      | mk nm dt =>
        simp only at hd
        rw [hd]
        rfl

theorem roundtrip_photos (ps : List AttachRec) (h : ∀ a ∈ ps, GoodBytes a) :
    ∃ ps', encodePhotos ps = some ps' ∧ ps'.map decodeAttach = ps := by
  induction ps with
  | nil => exact ⟨[], rfl, rfl⟩
  | cons a rest ih =>
    obtain ⟨a', ha1, ha2⟩ := roundtrip_attach (h a (List.mem_cons_self _ _))
    obtain ⟨rest', hr1, hr2⟩ := ih (fun x hx => h x (List.mem_cons_of_mem _ hx))
    refine ⟨a' :: rest', ?_, ?_⟩
    · simp [encodePhotos, ha1, hr1]
    · simp [ha2, hr2]

end Store

/-! ## Claim C7: persistence round trip restores binary payloads -/

/-- **C7**: for every site record whose `diagram.data` and `photos[i].data`
are bytes, encoding succeeds and decoding the encoded record restores every
binary payload byte for byte. -/
theorem C7_encode_decode_roundtrip :
    ∀ r : Store.SiteRec,
      (∀ a, r.diagram = some a → Store.GoodBytes a) →
      (∀ a ∈ r.photos, Store.GoodBytes a) →
      ∃ enc, Store.encode_binary_data r = some enc
        ∧ (Store.decode_binary_data enc).diagram.map Store.AttachRec.data
            = r.diagram.map Store.AttachRec.data
        ∧ (Store.decode_binary_data enc).photos.map Store.AttachRec.data
            = r.photos.map Store.AttachRec.data := by
  intro r hdia hph
  obtain ⟨ps', hp1, hp2⟩ := Store.roundtrip_photos r.photos hph
  cases hd : r.diagram with
  | none =>
    refine ⟨{ r with diagram := none, photos := ps' }, ?_, ?_, ?_⟩
    · simp [Store.encode_binary_data, hd, hp1]
    · simp [Store.decode_binary_data, hd]
    · simp [Store.decode_binary_data, hp2]
  | some a =>
    obtain ⟨a', ha1, ha2⟩ := Store.roundtrip_attach (hdia a hd)
    refine ⟨{ r with diagram := some a', photos := ps' }, ?_, ?_, ?_⟩
    · simp [Store.encode_binary_data, hd, ha1, hp1]
    · simp [Store.decode_binary_data, hd, ha2]
    · simp [Store.decode_binary_data, hp2]

/-- Witness for C7 at a concrete record with a diagram payload
`[255, 0, 10]` and one photo payload `[7]`. -/
theorem C7_encode_decode_roundtrip_witness :
    ∃ enc,
      Store.encode_binary_data
          ⟨[("site_name", "s")], some ⟨"d", Store.BinField.bytesF [255, 0, 10]⟩,
            [⟨"p", Store.BinField.bytesF [7]⟩]⟩ = some enc
      ∧ (Store.decode_binary_data enc).diagram.map Store.AttachRec.data
          = (some ⟨"d", Store.BinField.bytesF [255, 0, 10]⟩ :
              Option Store.AttachRec).map Store.AttachRec.data
      ∧ (Store.decode_binary_data enc).photos.map Store.AttachRec.data
          = [(⟨"p", Store.BinField.bytesF [7]⟩ : Store.AttachRec)].map
              Store.AttachRec.data := by
  exact C7_encode_decode_roundtrip
    ⟨[("site_name", "s")], some ⟨"d", Store.BinField.bytesF [255, 0, 10]⟩,
      [⟨"p", Store.BinField.bytesF [7]⟩]⟩
    (by
      intro a ha
      injection ha with ha'
      exact ⟨[255, 0, 10], by rw [← ha'], by decide⟩)
    (by
      intro a ha
      rw [List.mem_singleton.1 ha]
      exact ⟨[7], rfl, by decide⟩)

/-! ## Archival bundle (`serialise_site_for_storage` / `build_site_report_bundle`,
`src/app.py` lines 1108-1158)

Photos and the diagram are the same dict shape as in the merge engine, so
`Merge.Photo` is reused (`_coerce_bytes_or_none` is `Option Bytes` exactly
like `_ensure_bytes`).  Non-binary fields (with `datetime`/`date`/`time`
values already converted by `str(...)`) are an opaque key-value list.  The
mutable clock read `datetime.now(utc).isoformat()` is passed in as the
`now` parameter.  The code omits the `photos_metadata` key when no photo
metadata was produced and sets `sha256`/`size_bytes` only for truthy
payloads; an absent key is modelled as the empty list / `none`.
`hashlib.sha256(...).hexdigest()` is modelled by the injective content
fingerprint `sha256hex` (the byte content itself), which encodes the
collision-freeness the design relies on. -/

namespace Bundle

def sha256hex (bs : Merge.Bytes) : Merge.Bytes := bs

structure SiteB where
  fields : List (String × String)
  photos : List Merge.Photo
  diagram : Option Merge.Photo
deriving DecidableEq

structure MetaEntry where
  name : String
  mime : Option String
  sha256 : Option Merge.Bytes
  size_bytes : Option Nat
deriving DecidableEq

/-- One `photos_metadata` entry (lines 1118-1130 of `src/app.py`). -/
def photoMeta (p : Merge.Photo) : MetaEntry :=
  match p.data with
  | some bs =>
      if bs ≠ [] then
        ⟨Merge.defaultName p.name, p.mime, some (sha256hex bs), some bs.length⟩
      else ⟨Merge.defaultName p.name, p.mime, none, none⟩
  | none => ⟨Merge.defaultName p.name, p.mime, none, none⟩

/-- The `diagram_metadata` entry (lines 1134-1144): no name defaulting. -/
def diagramMeta (p : Merge.Photo) : MetaEntry :=
  match p.data with
  | some bs =>
      if bs ≠ [] then ⟨p.name, p.mime, some (sha256hex bs), some bs.length⟩
      else ⟨p.name, p.mime, none, none⟩
  | none => ⟨p.name, p.mime, none, none⟩

structure StoredSite where
  fields : List (String × String)
  photos_metadata : List MetaEntry
  diagram_metadata : Option MetaEntry
  bundle_generated_at_utc : String
deriving DecidableEq

/-- Embedding of `serialise_site_for_storage` (lines 1108-1147): the binary
`photos`/`diagram` fields are dropped and replaced by metadata descriptors. -/
def serialise_site_for_storage (now : String) (site : SiteB) : StoredSite :=
  { fields := site.fields
    photos_metadata := site.photos.map photoMeta
    diagram_metadata := site.diagram.map diagramMeta
    bundle_generated_at_utc := now }

structure BundleRec where
  bundle_version : Nat
  site : StoredSite
  pdf_base64 : List Nat
deriving DecidableEq

/-- Embedding of `build_site_report_bundle` (lines 1150-1158). -/
def build_site_report_bundle (now : String) (site : SiteB) (pdf_bytes : List Nat) :
    BundleRec :=
  { bundle_version := 1
    site := serialise_site_for_storage now site
    pdf_base64 := B64.b64encode pdf_bytes }

end Bundle

/-! ## Claim C8: bundle round trip and content fingerprints -/

/-- **C8**: base64-decoding the bundle's `pdf_base64` restores the rendered
document byte for byte; `photos_metadata` is exactly the list of metadata
descriptors of the site's photos in order, each carrying the SHA-256
fingerprint of the photo's original bytes and their byte count (for truthy
payloads), and no raw attachment payload: the bundle's site holds only
`photos_metadata`/`diagram_metadata` descriptor entries instead of the
binary `photos`/`diagram` fields. -/
theorem C8_bundle_roundtrip_and_fingerprints :
    ∀ (now : String) (site : Bundle.SiteB) (pdf : List Nat),
      (∀ b ∈ pdf, b < 256) →
      B64.pyB64decode ((Bundle.build_site_report_bundle now site pdf).pdf_base64)
          = some pdf
      ∧ (Bundle.build_site_report_bundle now site pdf).site.photos_metadata
          = site.photos.map Bundle.photoMeta
      ∧ (∀ p ∈ site.photos, ∀ bs, p.data = some bs → bs ≠ [] →
          (Bundle.photoMeta p).sha256 = some (Bundle.sha256hex bs)
          ∧ (Bundle.photoMeta p).size_bytes = some bs.length)
      ∧ (Bundle.build_site_report_bundle now site pdf).site.diagram_metadata
          = site.diagram.map Bundle.diagramMeta
      ∧ (Bundle.build_site_report_bundle now site pdf).bundle_version = 1 := by
  intro now site pdf hb
  refine ⟨B64.b64_roundtrip pdf hb, rfl, ?_, rfl, rfl⟩
  intro p _ bs hd hnil
  simp [Bundle.photoMeta, hd, hnil]

/-- Witness for C8 at a concrete site and document `[1, 2, 3]`. -/
theorem C8_bundle_roundtrip_and_fingerprints_witness :
    B64.pyB64decode ((Bundle.build_site_report_bundle "t"
        ⟨[("site_name", "s")], [⟨"p", some [9, 9], some "image/png"⟩], none⟩
        [1, 2, 3]).pdf_base64) = some [1, 2, 3]
    ∧ (Bundle.photoMeta ⟨"p", some [9, 9], some "image/png"⟩).sha256
        = some (Bundle.sha256hex [9, 9])
    ∧ (Bundle.photoMeta ⟨"p", some [9, 9], some "image/png"⟩).size_bytes = some 2 := by
  have h := C8_bundle_roundtrip_and_fingerprints "t"
    ⟨[("site_name", "s")], [⟨"p", some [9, 9], some "image/png"⟩], none⟩
    [1, 2, 3] (by decide)
  have hmeta := h.2.2.1 ⟨"p", some [9, 9], some "image/png"⟩
    (List.mem_singleton.2 rfl) [9, 9] rfl (by decide)
  exact ⟨h.1, hmeta.1, hmeta.2.trans (by decide)⟩

/-! ## Two-pass page numbering (`NumberedCanvas`, `src/app.py` lines 171-193)

The subclass buffers the full canvas state dict on every `showPage` instead
of emitting the page, and emits everything in `save`.  The model keeps the
two pieces of the state the numbering logic reads and writes: reportlab's
page counter `_pageNumber` (which starts at 1 and is incremented by
`_startPage`) and the list of drawing operations of the current page
(abstracted as strings; `_draw_page_number` appends the centred footer text
`f"{self._pageNumber} of {page_count}"`).  `save` re-traverses the buffered
page states in order, stamps the footer text and emits each page. -/

namespace Canvas

structure PageState where
  pageNumber : Nat
  ops : List String
deriving DecidableEq

structure NumberedCanvas where
  savedPageStates : List PageState
  current : PageState
deriving DecidableEq

/-- A fresh reportlab canvas: page number 1, nothing drawn. -/
def NumberedCanvas.init : NumberedCanvas := ⟨[], ⟨1, []⟩⟩

/-- A drawing call on the current page (first pass; no page number drawn). -/
def NumberedCanvas.draw (c : NumberedCanvas) (s : String) : NumberedCanvas :=
  { c with current := { c.current with ops := c.current.ops ++ [s] } }

/-- Overridden `showPage` (lines 176-178): buffer the state, start a fresh
page (`_startPage` increments `_pageNumber` and clears the page). -/
def NumberedCanvas.showPage (c : NumberedCanvas) : NumberedCanvas :=
  ⟨c.savedPageStates ++ [c.current], ⟨c.current.pageNumber + 1, []⟩⟩

/-- The footer text of `_draw_page_number` (lines 188-193). -/
def pageNumberText (i n : Nat) : String :=
  toString i ++ " of " ++ toString n

/-- Overridden `save` (lines 180-186): once the total count is known, replay
every buffered page state in order, stamp `"i of N"` and emit the page. -/
def NumberedCanvas.save (c : NumberedCanvas) : List PageState :=
  c.savedPageStates.map
    (fun st =>
      { st with ops := st.ops ++ [pageNumberText st.pageNumber c.savedPageStates.length] })

inductive CanvasOp where
  | draw : String → CanvasOp
  | showPage : CanvasOp
deriving DecidableEq

def runOps (c : NumberedCanvas) : List CanvasOp → NumberedCanvas
  | [] => c
  | .draw s :: rest => runOps (c.draw s) rest
  | .showPage :: rest => runOps c.showPage rest

/-- Render a drawing script: first pass buffers pages, `save` finalizes. -/
def renderDocument (ops : List CanvasOp) : List PageState :=
  (runOps NumberedCanvas.init ops).save

theorem get_append_left {α : Type} (l₁ l₂ : List α) : ∀ (i : Nat) (h : i < l₁.length)
    (h' : i < (l₁ ++ l₂).length), (l₁ ++ l₂).get ⟨i, h'⟩ = l₁.get ⟨i, h⟩ := by
  induction l₁ with
  | nil => intro i h _; cases h
  | cons a t ih =>
    intro i h h'
    cases i with
    | zero => rfl
    | succ n => exact ih n (Nat.lt_of_succ_lt_succ h) (Nat.lt_of_succ_lt_succ h')

theorem get_append_last {α : Type} (l : List α) (x : α) :
    ∀ (h : l.length < (l ++ [x]).length), (l ++ [x]).get ⟨l.length, h⟩ = x := by
  induction l with
  | nil => intro h; rfl
  | cons a t ih => intro h; exact ih (by simp)

def CanvasInv (c : NumberedCanvas) : Prop :=
  c.current.pageNumber = c.savedPageStates.length + 1
  ∧ ∀ i (h : i < c.savedPageStates.length),
      (c.savedPageStates.get ⟨i, h⟩).pageNumber = i + 1

theorem runOps_inv (ops : List CanvasOp) : ∀ c, CanvasInv c →
    CanvasInv (runOps c ops) := by
  induction ops with
  | nil => intro c h; exact h
  | cons op rest ih =>
    intro c h
    cases op with
    | draw s =>
      show CanvasInv (runOps (c.draw s) rest)
      apply ih
      exact ⟨h.1, h.2⟩
    | showPage =>
      show CanvasInv (runOps c.showPage rest)
      apply ih
      constructor
      · show c.current.pageNumber + 1 = (c.savedPageStates ++ [c.current]).length + 1
        rw [List.length_append, h.1]
        simp
      · intro i hi
        show ((c.savedPageStates ++ [c.current]).get ⟨i, hi⟩).pageNumber = i + 1
        have hi' : i < c.savedPageStates.length + 1 := by
          simpa [NumberedCanvas.showPage] using hi
        by_cases hlt : i < c.savedPageStates.length
        · rw [get_append_left c.savedPageStates [c.current] i hlt hi]
          exact h.2 i hlt
        · have hieq : i = c.savedPageStates.length := by omega
          subst hieq
          rw [get_append_last c.savedPageStates c.current hi]
          simpa using h.1

theorem get_map_at {α β : Type} (f : α → β) (l : List α) :
    ∀ (i : Nat) (h1 : i < (l.map f).length) (h2 : i < l.length),
      (l.map f).get ⟨i, h1⟩ = f (l.get ⟨i, h2⟩) := by
  induction l with
  | nil => intro i _ h2; cases h2
  | cons a t ih =>
    intro i h1 h2
    cases i with
    | zero => rfl
    | succ n => exact ih n (Nat.lt_of_succ_lt_succ h1) (Nat.lt_of_succ_lt_succ h2)

end Canvas

/-! ## Claim C9: two-pass page numbering -/

/-- **C9**: pages are drawn and buffered without a visible page number
(first pass only accumulates drawing operations); once the total count `N`
is known, `save` traverses the buffered page states in order and stamps
`"i of N"` onto page `i`: the finalized document has one page per buffered
state, page `i` carries page number `i+1`, and its operations are exactly
the buffered operations followed by the `"i+1 of N"` footer stamp. -/
theorem C9_two_pass_numbering :
    ∀ ops : List Canvas.CanvasOp,
      (Canvas.renderDocument ops).length
          = (Canvas.runOps Canvas.NumberedCanvas.init ops).savedPageStates.length
      ∧ ∀ (i : Nat) (h1 : i < (Canvas.renderDocument ops).length)
          (h2 : i < (Canvas.runOps Canvas.NumberedCanvas.init ops).savedPageStates.length),
          ((Canvas.renderDocument ops).get ⟨i, h1⟩).pageNumber = i + 1
          ∧ ((Canvas.renderDocument ops).get ⟨i, h1⟩).ops
              = ((Canvas.runOps Canvas.NumberedCanvas.init ops).savedPageStates.get
                  ⟨i, h2⟩).ops
                ++ [Canvas.pageNumberText (i + 1) (Canvas.renderDocument ops).length] := by
  intro ops
  have hinv : Canvas.CanvasInv (Canvas.runOps Canvas.NumberedCanvas.init ops) :=
    Canvas.runOps_inv ops Canvas.NumberedCanvas.init ⟨rfl, by intro i h; cases h⟩
  have hlen : (Canvas.renderDocument ops).length
      = (Canvas.runOps Canvas.NumberedCanvas.init ops).savedPageStates.length := by
    show ((Canvas.runOps Canvas.NumberedCanvas.init ops).savedPageStates.map _).length = _
    rw [List.length_map]
  refine ⟨hlen, ?_⟩
  intro i h1 h2
  have hpage := hinv.2 i h2
  have hget : (Canvas.renderDocument ops).get ⟨i, h1⟩
      = { (Canvas.runOps Canvas.NumberedCanvas.init ops).savedPageStates.get ⟨i, h2⟩ with
          ops := ((Canvas.runOps Canvas.NumberedCanvas.init ops).savedPageStates.get
              ⟨i, h2⟩).ops
            ++ [Canvas.pageNumberText
                ((Canvas.runOps Canvas.NumberedCanvas.init ops).savedPageStates.get
                  ⟨i, h2⟩).pageNumber
                (Canvas.runOps Canvas.NumberedCanvas.init ops).savedPageStates.length] } :=
    Canvas.get_map_at _ _ i h1 h2
  constructor
  · rw [hget]
    exact hpage
  · rw [hget, hpage, hlen]

/-- Witness for C9: the script draw "a"; showPage; showPage yields two
pages, page 1 with operations `["a", "1 of 2"]` and page 2 with `["2 of 2"]`. -/
theorem C9_two_pass_numbering_witness :
    ((Canvas.renderDocument
        [Canvas.CanvasOp.draw "a", Canvas.CanvasOp.showPage,
          Canvas.CanvasOp.showPage]).get ⟨0, by decide⟩).pageNumber = 0 + 1
    ∧ ((Canvas.renderDocument
        [Canvas.CanvasOp.draw "a", Canvas.CanvasOp.showPage,
          Canvas.CanvasOp.showPage]).get ⟨1, by decide⟩).pageNumber = 1 + 1
    ∧ Canvas.renderDocument
        [Canvas.CanvasOp.draw "a", Canvas.CanvasOp.showPage, Canvas.CanvasOp.showPage]
      = [⟨1, ["a", Canvas.pageNumberText 1 2]⟩, ⟨2, [Canvas.pageNumberText 2 2]⟩] := by
  refine ⟨?_, ?_, by decide⟩
  · exact ((C9_two_pass_numbering
      [Canvas.CanvasOp.draw "a", Canvas.CanvasOp.showPage,
        Canvas.CanvasOp.showPage]).2 0 (by decide) (by decide)).1
  · exact ((C9_two_pass_numbering
      [Canvas.CanvasOp.draw "a", Canvas.CanvasOp.showPage,
        Canvas.CanvasOp.showPage]).2 1 (by decide) (by decide)).1
